import Mathlib

/-!
Verification of the mcube O(1) run-queue scheduler and x86 spinlock.

Shallow embedding of `kernel/queue/o1.c` (enqueue_rq_queue_head,
enqueue_rq_queue, dequeue_rq_queue, pick_next_task, init_rq) and of
`arch/x86/lib/spinlock.c` (spin_trylock, spin_unlock).

The run-queue heap is modelled explicitly: a pointer is either the sentinel
list head `rq->array[p]` (`Ptr.head p`) or a thread descriptor
(`Ptr.thread t`); the intrusive `next`/`prev` fields of all nodes are two
total maps `Ptr → Ptr`.  The priority bitmap is a `Nat` used as a
bit-vector.  `th->priority` is the `prio` map, which no queue operation
writes.  `bindex[cpu]` (written by `pick_next_task`) is also part of the
per-CPU state.
-/

namespace Mcube

/-- A pointer in the run-queue heap: either the sentinel head
`&rq->array[p]` of the priority-`p` circular list, or a thread
descriptor `struct thread_struct *`. -/
inductive Ptr where
  | head : Nat → Ptr
  | thread : Nat → Ptr
deriving DecidableEq, Repr

/-- Per-CPU scheduler state: the run-queue `struct runqueue` (its `bitmap`
and, through `next`/`prev`, its `array` of sentinel heads), the intrusive
`next`/`prev` fields of every node, the `priority` field of every thread,
and the global `bindex[cpu]` cache written by `pick_next_task`. -/
structure RQState where
  bitmap : Nat
  next : Ptr → Ptr
  prev : Ptr → Ptr
  prio : Nat → Nat
  bindex : Nat

/-- Pointwise update of a heap field map (one pointer-field assignment). -/
def fupd (f : Ptr → Ptr) (x v : Ptr) : Ptr → Ptr :=
  fun y => if y = x then v else f y

/-- Modelled from the spec: `set_bit(bitmap, p)` (declared in a header not
present in the sources) sets bit `p` of the bitmap. -/
def set_bit (bm p : Nat) : Nat := bm ||| 2 ^ p

/-- Modelled from the spec: `clear_bit(bitmap, p)` (declared in a header not
present in the sources) clears bit `p` of the bitmap. -/
def clear_bit (bm p : Nat) : Nat := bm ^^^ (bm &&& 2 ^ p)

/-! ## The five operations of `kernel/queue/o1.c`, translated statement by
statement.  Each C pointer assignment becomes one `fupd`; each statement
reads the maps produced by the previous statement. -/

/-- Source `enqueue_rq_queue_head(rq, th)`:
```
set_bit(rq->bitmap, th->priority);
rq->array[p].next->prev = th;
th->next = rq->array[p].next;
th->prev = &rq->array[p];
rq->array[p].next = th;
``` -/
def enqueue_rq_queue_head (s : RQState) (th : Nat) : RQState :=
  let p := s.prio th
  let t := Ptr.thread th
  let h := Ptr.head p
  let bm := set_bit s.bitmap p
  let prev1 := fupd s.prev (s.next h) t
  let next1 := fupd s.next t (s.next h)
  let prev2 := fupd prev1 t h
  let next2 := fupd next1 h t
  { s with bitmap := bm, next := next2, prev := prev2 }

/-- Source `enqueue_rq_queue(rq, th)` (tail insertion):
```
set_bit(rq->bitmap, th->priority);
rq->array[p].prev->next = th;
th->prev = rq->array[p].prev;
th->next = &rq->array[p];
rq->array[p].prev = th;
``` -/
def enqueue_rq_queue (s : RQState) (th : Nat) : RQState :=
  let p := s.prio th
  let t := Ptr.thread th
  let h := Ptr.head p
  let bm := set_bit s.bitmap p
  let next1 := fupd s.next (s.prev h) t
  let prev1 := fupd s.prev t (s.prev h)
  let next2 := fupd next1 t h
  let prev2 := fupd prev1 h t
  { s with bitmap := bm, next := next2, prev := prev2 }

/-- Source `dequeue_rq_queue(rq, th)`:
```
if (rq->array[p].next == th) rq->array[p].next = th->next;
else th->prev->next = th->next;
th->next->prev = th->prev;
if (rq->array[p].next == &rq->array[p]) clear_bit(rq->bitmap, p);
``` -/
def dequeue_rq_queue (s : RQState) (th : Nat) : RQState :=
  let p := s.prio th
  let t := Ptr.thread th
  let h := Ptr.head p
  let next1 :=
    if s.next h = t then fupd s.next h (s.next t)
    else fupd s.next (s.prev t) (s.next t)
  let prev1 := fupd s.prev (next1 t) (s.prev t)
  let bm := if next1 h = h then clear_bit s.bitmap p else s.bitmap
  { s with bitmap := bm, next := next1, prev := prev1 }

/-- Modelled from the spec: `find_first_bit(bitmap, …)` (implemented in an
architecture library not present in the sources) returns the lowest-numbered
set bit of the `NR_PRIORITIES`-bit bitmap, and `NR_PRIORITIES` when no bit
is set — `pick_next_task` compares the result against `NR_PRIORITIES`.
`ffbFrom bm i f` scans bits `i, i+1, …, i+f-1`. -/
def ffbFrom (bm : Nat) : Nat → Nat → Nat
  | i, 0 => i
  | i, f + 1 => if bm.testBit i then i else ffbFrom bm (i + 1) f

/-- Modelled from the spec: scan the `N`-bit bitmap for the first set bit;
return `N` if none is set. -/
def find_first_bit (bm N : Nat) : Nat := ffbFrom bm 0 N

/-- Source `pick_next_task()` on the calling CPU's run-queue: writes
`bindex[cpu]`, returns `NULL` (`none`) when `find_first_bit` reports an
empty bitmap and otherwise the `next` pointer of the sentinel at the found
priority.  `NR_PRIORITIES` is the parameter `N`. -/
def pick_next_task (N : Nat) (s : RQState) : Option Ptr × RQState :=
  let b := find_first_bit s.bitmap N
  let s' := { s with bindex := b }
  if b ≠ N then (some (s'.next (Ptr.head b)), s') else (none, s')

/-- Source `init_rq()`: for each priority `i < NR_PRIORITIES`, set
`array[i].prev = array[i].next = &array[i]`. -/
def init_rq (N : Nat) (s : RQState) : RQState :=
  (List.range N).foldl
    (fun s i =>
      { s with next := fupd s.next (Ptr.head i) (Ptr.head i),
               prev := fupd s.prev (Ptr.head i) (Ptr.head i) }) s

/-! ## Abstraction: a priority list as a Lean `List` of thread ids

`seg nxt c ts` says the `nxt` links lead from node `c` through exactly the
threads of `ts` in order; `lastPtr c ts` is the final node of that walk;
`chain nxt h c ts` closes the walk back to the sentinel `h`, which is the
circular-list shape the C code maintains. -/

/-- The last node of the walk that starts at `c` and visits `ts`. -/
def lastPtr (c : Ptr) (ts : List Nat) : Ptr :=
  match ts.getLast? with
  | some t => Ptr.thread t
  | none => c

/-- Walk relation: `nxt` links `c` through the threads of `ts` in order. -/
def seg (nxt : Ptr → Ptr) : Ptr → List Nat → Prop
  | _, [] => True
  | c, t :: ts => nxt c = Ptr.thread t ∧ seg nxt (Ptr.thread t) ts

instance segDec (nxt : Ptr → Ptr) : ∀ c ts, Decidable (seg nxt c ts)
  | _, [] => isTrue trivial
  | _, t :: ts =>
    @instDecidableAnd _ _ (inferInstance) (segDec nxt (Ptr.thread t) ts)

/-- Circular list: `nxt` walks from `c` through `ts` and the last node
links back to the sentinel `h`. -/
def chain (nxt : Ptr → Ptr) (h c : Ptr) (ts : List Nat) : Prop :=
  seg nxt c ts ∧ nxt (lastPtr c ts) = h

instance (nxt : Ptr → Ptr) (h c : Ptr) (ts : List Nat) :
    Decidable (chain nxt h c ts) := by
  unfold chain; infer_instance

/-- The nodes whose `nxt` field `seg nxt c ts` reads: all but the last. -/
def readers (c : Ptr) : List Nat → List Ptr
  | [] => []
  | t :: ts => c :: readers (Ptr.thread t) ts

/-- The priority-`p` circular list of `s` holds exactly the threads `ts`:
the `next` chain and (reversed) `prev` chain both realize `ts`, every
member's `priority` field is `p`, and `ts` has no duplicates. -/
def listOK (s : RQState) (p : Nat) (ts : List Nat) : Prop :=
  chain s.next (Ptr.head p) (Ptr.head p) ts ∧
  chain s.prev (Ptr.head p) (Ptr.head p) ts.reverse ∧
  (∀ t ∈ ts, s.prio t = p) ∧ ts.Nodup

instance (s : RQState) (p : Nat) (ts : List Nat) : Decidable (listOK s p ts) := by
  unfold listOK; infer_instance

/-- Well-formedness of a run-queue, phrased as realizing an assignment `L`
of a thread-id list to every priority: every priority list is a consistent
circular list holding `L p`, and bitmap bit `p` is set iff `L p` is
non-empty. -/
def realizes (N : Nat) (s : RQState) (L : Nat → List Nat) : Prop :=
  (∀ p, p < N → listOK s p (L p)) ∧
  (∀ p, p < N → (s.bitmap.testBit p = true ↔ L p ≠ []))

instance (N : Nat) (s : RQState) (L : Nat → List Nat) :
    Decidable (realizes N s L) := by
  unfold realizes; infer_instance

/-- The first node of the circular list: the first thread, or the sentinel
itself when the list is empty. -/
def headPtr (c : Ptr) (ts : List Nat) : Ptr :=
  match ts.head? with
  | some t => Ptr.thread t
  | none => c

/-- Pointwise update of the abstract list assignment. -/
def updL (L : Nat → List Nat) (p : Nat) (v : List Nat) : Nat → List Nat :=
  fun q => if q = p then v else L q

/-! ### Arbitrary sequences of queue operations -/

/-- One run-queue operation of `kernel/queue/o1.c`. -/
inductive RQOp where
  | enqTail : Nat → RQOp
  | enqHead : Nat → RQOp
  | deq : Nat → RQOp
deriving DecidableEq, Repr

/-- Run one operation on the concrete state. -/
def applyOp (s : RQState) : RQOp → RQState
  | .enqTail th => enqueue_rq_queue s th
  | .enqHead th => enqueue_rq_queue_head s th
  | .deq th => dequeue_rq_queue s th

/-- Run a sequence of operations on the concrete state. -/
def applyOps (s : RQState) (ops : List RQOp) : RQState :=
  ops.foldl applyOp s

/-- The same operation on the abstract per-priority lists (`pr` is the
immutable priority map). -/
def stepL (pr : Nat → Nat) (L : Nat → List Nat) : RQOp → (Nat → List Nat)
  | .enqTail th => updL L (pr th) (L (pr th) ++ [th])
  | .enqHead th => updL L (pr th) (th :: L (pr th))
  | .deq th => updL L (pr th) ((L (pr th)).erase th)

/-- Run a sequence of operations on the abstract lists. -/
def runL (pr : Nat → Nat) (L : Nat → List Nat) (ops : List RQOp) :
    Nat → List Nat :=
  ops.foldl (stepL pr) L

/-- Precondition of one operation (spec: enqueued threads are not already
queued, dequeued threads are present, priorities are in range). -/
def legalOp (N : Nat) (pr : Nat → Nat) (L : Nat → List Nat) : RQOp → Prop
  | .enqTail th => pr th < N ∧ ∀ q, q < N → th ∉ L q
  | .enqHead th => pr th < N ∧ ∀ q, q < N → th ∉ L q
  | .deq th => pr th < N ∧ th ∈ L (pr th)

instance (N : Nat) (pr : Nat → Nat) (L : Nat → List Nat) (o : RQOp) :
    Decidable (legalOp N pr L o) := by
  cases o <;> (unfold legalOp; infer_instance)

/-- Every operation of the sequence meets its precondition in the abstract
state it runs in. -/
def legalOps (N : Nat) (pr : Nat → Nat) : (Nat → List Nat) → List RQOp → Prop
  | _, [] => True
  | L, o :: os => legalOp N pr L o ∧ legalOps N pr (stepL pr L o) os

instance legalOpsDec (N : Nat) (pr : Nat → Nat) :
    ∀ (L : Nat → List Nat) (ops : List RQOp), Decidable (legalOps N pr L ops)
  | _, [] => isTrue trivial
  | L, o :: os =>
    @instDecidableAnd _ _ inferInstance (legalOpsDec N pr (stepL pr L o) os)

/-! ## `arch/x86/lib/spinlock.c`

`struct lock_spin { uint32_t val; union x86_rflags rflags; }`.  The CPU's
`%rflags` register is modelled as a raw `Nat`; per `union x86_rflags`, the
`irqs_enabled` (IF) flag is bit 9.  `_SPIN_UNLOCKED = 0`, `_SPIN_LOCKED = 1`. -/

structure lock_spin where
  val : Nat
  rflags : Nat

structure CpuState where
  rflags : Nat
  lock : lock_spin

def _SPIN_UNLOCKED : Nat := 0

def _SPIN_LOCKED : Nat := 1

/-- Modelled from the spec: `local_irq_disable_save()` (an inline helper not
present in the sources) returns the current `%rflags` and clears its IF bit
(bit 9), disabling local interrupts. -/
def local_irq_disable_save (s : CpuState) : Nat × CpuState :=
  (s.rflags, { s with rflags := clear_bit s.rflags 9 })

/-- Modelled from the spec: `local_irq_restore(flags)` (an inline helper not
present in the sources) writes the saved flags image back to `%rflags`, as
`set_rflags` does. -/
def local_irq_restore (f : Nat) (s : CpuState) : CpuState :=
  { s with rflags := f }

/-- Modelled from the spec: `atomic_bit_test_and_set(&val)` (an inline
helper not present in the sources) atomically sets bit 0 of the lock word
and returns its previous value (`_SPIN_LOCKED` iff it was already set). -/
def atomic_bit_test_and_set (v : Nat) : Nat × Nat :=
  ((if v.testBit 0 then _SPIN_LOCKED else _SPIN_UNLOCKED), v ||| 1)

/-- Source `spin_trylock(lock)`:
```
rflags = local_irq_disable_save();
if (atomic_bit_test_and_set(&lock->val) == _SPIN_LOCKED) {
  local_irq_restore(rflags);
  return false;
}
lock->rflags = rflags;
return true;
``` -/
def spin_trylock (s : CpuState) : Bool × CpuState :=
  let rp := local_irq_disable_save s
  let ats := atomic_bit_test_and_set rp.2.lock.val
  let s2 := { rp.2 with lock := { rp.2.lock with val := ats.2 } }
  if ats.1 = _SPIN_LOCKED then (false, local_irq_restore rp.1 s2)
  else (true, { s2 with lock := { s2.lock with rflags := rp.1 } })

/-- The two state-changing steps of `spin_unlock` (the initial
`rflags = lock->rflags` read and `barrier()` change no state). -/
inductive UnlockStep where
  | clear_val
  | restore_irq
deriving DecidableEq, Repr

def unlock_step (saved : Nat) (s : CpuState) : UnlockStep → CpuState
  | .clear_val => { s with lock := { s.lock with val := _SPIN_UNLOCKED } }
  | .restore_irq => { s with rflags := saved }

/-- Source `spin_unlock(lock)` body, in program order:
`lock->val = _SPIN_UNLOCKED;` then `local_irq_restore(rflags);`. -/
def spin_unlock_steps : List UnlockStep :=
  [UnlockStep.clear_val, UnlockStep.restore_irq]

/-- Source `spin_unlock(lock)`: run the steps in program order, with `saved` the
value read from `lock->rflags` at entry. -/
def spin_unlock (s : CpuState) : CpuState :=
  spin_unlock_steps.foldl (unlock_step s.lock.rflags) s

/-! ### Concrete states used to exercise the theorems -/

/-- A boot-like per-CPU run-queue: every node self-linked, bitmap clear,
all threads at priority 0. -/
def sInit : RQState :=
  { bitmap := 0, next := fun x => x, prev := fun x => x,
    prio := fun _ => 0, bindex := 0 }

/-- A run-queue whose bitmap (dirtily) has bit 0 set while all lists are
structurally empty. -/
def sBit : RQState :=
  { bitmap := 1, next := fun x => x, prev := fun x => x,
    prio := fun _ => 0, bindex := 0 }

/-- A well-formed run-queue holding exactly thread 0 at priority 0. -/
def sOne : RQState :=
  { bitmap := 1,
    next := fun x => if x = Ptr.head 0 then Ptr.thread 0
      else if x = Ptr.thread 0 then Ptr.head 0 else x,
    prev := fun x => if x = Ptr.head 0 then Ptr.thread 0
      else if x = Ptr.thread 0 then Ptr.head 0 else x,
    prio := fun _ => 0, bindex := 0 }

/-- A run-queue whose threads all carry the out-of-range priority 7. -/
def sHigh : RQState :=
  { bitmap := 0, next := fun x => x, prev := fun x => x,
    prio := fun _ => 7, bindex := 0 }

/-- A CPU whose IF flag (bit 9) is set and whose lock is held. -/
def cpuLocked : CpuState :=
  { rflags := 512, lock := { val := 1, rflags := 37 } }

/-- A CPU whose IF flag (bit 9) is set and whose lock is free. -/
def cpuFree : CpuState :=
  { rflags := 512, lock := { val := 0, rflags := 37 } }

/-! ## Theorems -/

@[simp] theorem fupd_same (f : Ptr → Ptr) (x v : Ptr) : fupd f x v x = v := by
  simp [fupd]

theorem fupd_other (f : Ptr → Ptr) {x y v : Ptr} (h : y ≠ x) :
    fupd f x v y = f y := by
  simp [fupd, h]

@[simp] theorem testBit_set_bit (bm p q : Nat) :
    (set_bit bm p).testBit q = (bm.testBit q || decide (q = p)) := by
  rcases eq_or_ne q p with rfl | h
  · simp [set_bit, Nat.testBit_or, Nat.testBit_two_pow_self]
  · simp [set_bit, Nat.testBit_or, Nat.testBit_two_pow_of_ne (Ne.symm h), h]

@[simp] theorem testBit_clear_bit (bm p q : Nat) :
    (clear_bit bm p).testBit q = (bm.testBit q && !decide (q = p)) := by
  rcases eq_or_ne q p with rfl | h
  · simp [clear_bit, Nat.testBit_xor, Nat.testBit_and, Nat.testBit_two_pow_self]
  · simp [clear_bit, Nat.testBit_xor, Nat.testBit_and,
      Nat.testBit_two_pow_of_ne (Ne.symm h), h]

/-! ### Lemma kit for `seg` / `chain` -/

@[simp] theorem lastPtr_nil (c : Ptr) : lastPtr c [] = c := rfl

theorem lastPtr_cons (c : Ptr) (a : Nat) (ts : List Nat) :
    lastPtr c (a :: ts) = lastPtr (Ptr.thread a) ts := by
  cases ts with
  | nil => simp [lastPtr]
  | cons b bs =>
    obtain ⟨x, hx⟩ : ∃ x, (b :: bs).getLast? = some x :=
      Option.isSome_iff_exists.mp (by simp)
    simp [lastPtr, List.getLast?_cons_cons, hx]

theorem lastPtr_append (c : Ptr) (xs ys : List Nat) :
    lastPtr c (xs ++ ys) = lastPtr (lastPtr c xs) ys := by
  induction xs generalizing c with
  | nil => simp
  | cons a as ih => rw [List.cons_append, lastPtr_cons, lastPtr_cons, ih]

theorem lastPtr_concat (c : Ptr) (ts : List Nat) (a : Nat) :
    lastPtr c (ts ++ [a]) = Ptr.thread a := by
  rw [lastPtr_append]; rfl

theorem lastPtr_mem (c : Ptr) (ts : List Nat) :
    lastPtr c ts = c ∨ ∃ t ∈ ts, lastPtr c ts = Ptr.thread t := by
  cases hts : ts.getLast? with
  | none => left; simp [lastPtr, hts]
  | some t =>
    right
    exact ⟨t, List.mem_of_mem_getLast? (by simp [hts]), by simp [lastPtr, hts]⟩

theorem seg_append (nxt : Ptr → Ptr) (c : Ptr) (xs ys : List Nat) :
    seg nxt c (xs ++ ys) ↔ seg nxt c xs ∧ seg nxt (lastPtr c xs) ys := by
  induction xs generalizing c with
  | nil => simp [seg]
  | cons a as ih =>
    rw [List.cons_append]
    show (nxt c = Ptr.thread a ∧ seg nxt (Ptr.thread a) (as ++ ys)) ↔ _
    rw [ih, lastPtr_cons]
    constructor
    · rintro ⟨h1, h2, h3⟩; exact ⟨⟨h1, h2⟩, h3⟩
    · rintro ⟨⟨h1, h2⟩, h3⟩; exact ⟨h1, h2, h3⟩

theorem seg_congr {nxt nxt' : Ptr → Ptr} {c : Ptr} {ts : List Nat}
    (hs : seg nxt c ts) (he : ∀ x ∈ readers c ts, nxt' x = nxt x) :
    seg nxt' c ts := by
  induction ts generalizing c with
  | nil => trivial
  | cons a as ih =>
    obtain ⟨h1, h2⟩ := hs
    refine ⟨?_, ih h2 ?_⟩
    · rw [he c (by simp [readers]), h1]
    · intro x hx; exact he x (by simp [readers, hx])

theorem readers_subset {c : Ptr} {ts : List Nat} {x : Ptr}
    (hx : x ∈ readers c ts) : x = c ∨ ∃ t ∈ ts, x = Ptr.thread t := by
  induction ts generalizing c with
  | nil => cases hx
  | cons a as ih =>
    rcases List.mem_cons.mp hx with rfl | hx'
    · exact Or.inl rfl
    · rcases ih hx' with rfl | ⟨t, ht, rfl⟩
      · exact Or.inr ⟨a, by simp, rfl⟩
      · exact Or.inr ⟨t, by simp [ht], rfl⟩

/-- Precise description of the read set: all walk nodes except the last. -/
theorem readers_eq (c : Ptr) (ts : List Nat) :
    readers c ts = (c :: ts.map Ptr.thread).dropLast := by
  induction ts generalizing c with
  | nil => rfl
  | cons a as ih =>
    show c :: readers (Ptr.thread a) as = _
    rw [ih]
    simp [List.dropLast_cons_of_ne_nil]

/-- A coarse congruence for full circular chains: agreement on the sentinel
and on every member thread suffices. -/
theorem chain_congr {nxt nxt' : Ptr → Ptr} {h c : Ptr} {ts : List Nat}
    (hc : chain nxt h c ts)
    (he : ∀ x, x = c ∨ (∃ t ∈ ts, x = Ptr.thread t) → nxt' x = nxt x) :
    chain nxt' h c ts := by
  obtain ⟨h1, h2⟩ := hc
  refine ⟨seg_congr h1 (fun x hx => he x (readers_subset hx)), ?_⟩
  rcases lastPtr_mem c ts with hl | ⟨t, ht, hl⟩
  · rw [he _ (Or.inl hl), h2]
  · rw [he _ (Or.inr ⟨t, ht, hl⟩), h2]

theorem exists_getLast_of_ne_nil (c : Ptr) {ts : List Nat} (h : ts ≠ []) :
    ∃ g, ts.getLast? = some g ∧ g ∈ ts ∧ lastPtr c ts = Ptr.thread g := by
  obtain ⟨g, hg⟩ : ∃ g, ts.getLast? = some g :=
    Option.isSome_iff_exists.mp (by simp [List.getLast?_isSome, h])
  exact ⟨g, hg, List.mem_of_mem_getLast? (by simp [hg]), by simp [lastPtr, hg]⟩

theorem nodup_getLast_dropLast {ts : List Nat} (hn : ts.Nodup) {g : Nat}
    (hg : ts.getLast? = some g) : g ∉ ts.dropLast := by
  induction ts with
  | nil => simp at hg
  | cons a as ih =>
    cases as with
    | nil => simp
    | cons b bs =>
      rw [List.getLast?_cons_cons] at hg
      rw [List.dropLast_cons_of_ne_nil (by simp)]
      intro hmem
      rcases List.mem_cons.mp hmem with rfl | hmem'
      · exact (List.nodup_cons.mp hn).1
          (List.mem_of_mem_getLast? (by simp [hg]))
      · exact ih (List.nodup_cons.mp hn).2 hg hmem'

theorem readers_mem {c : Ptr} {ts : List Nat} {x : Ptr}
    (hx : x ∈ readers c ts) : x = c ∨ ∃ u ∈ ts.dropLast, x = Ptr.thread u := by
  induction ts generalizing c with
  | nil => cases hx
  | cons a as ih =>
    cases as with
    | nil =>
      rcases List.mem_cons.mp hx with rfl | h0
      · exact Or.inl rfl
      · simp [readers] at h0
    | cons b bs =>
      rcases List.mem_cons.mp hx with rfl | hx'
      · exact Or.inl rfl
      · rcases ih hx' with rfl | ⟨u, hu, rfl⟩
        · right
          exact ⟨a, by rw [List.dropLast_cons_of_ne_nil (by simp)]; simp, rfl⟩
        · right
          refine ⟨u, ?_, rfl⟩
          rw [List.dropLast_cons_of_ne_nil (by simp)]
          simp [hu]

/-- Nodes the `seg` walk reads are never the walk's last node (for a walk
that starts at a sentinel over a duplicate-free list). -/
theorem readers_ne_lastPtr {p : Nat} {ts : List Nat} (hn : ts.Nodup) :
    ∀ x ∈ readers (Ptr.head p) ts, x ≠ lastPtr (Ptr.head p) ts := by
  intro x hx
  have hne : ts ≠ [] := by rintro rfl; cases hx
  obtain ⟨g, hg, _, hl⟩ := exists_getLast_of_ne_nil (Ptr.head p) hne
  rcases readers_mem hx with rfl | ⟨u, hu, rfl⟩
  · rw [hl]; simp
  · rw [hl]
    intro hcontra
    cases hcontra
    exact nodup_getLast_dropLast hn hg hu

@[simp] theorem headPtr_nil (c : Ptr) : headPtr c [] = c := rfl

@[simp] theorem headPtr_cons (c : Ptr) (a : Nat) (ts : List Nat) :
    headPtr c (a :: ts) = Ptr.thread a := rfl

theorem lastPtr_reverse (c : Ptr) (ts : List Nat) :
    lastPtr c ts.reverse = headPtr c ts := by
  unfold lastPtr headPtr
  rw [List.getLast?_reverse]

/-- In a well-formed circular list, the sentinel's `prev` is the list's
last node. -/
theorem prev_head_eq_lastPtr {prv : Ptr → Ptr} {p : Nat} {ts : List Nat}
    (hc : chain prv (Ptr.head p) (Ptr.head p) ts.reverse) :
    prv (Ptr.head p) = lastPtr (Ptr.head p) ts := by
  cases ts with
  | nil => simpa [chain, lastPtr] using hc.2
  | cons a as =>
    have hrev : (a :: as).reverse ≠ [] := by simp
    obtain ⟨g, gs, hgs⟩ := List.exists_cons_of_ne_nil hrev
    have hgl : (a :: as).getLast? = some g := by
      rw [← List.head?_reverse, hgs]; rfl
    have hseg : seg prv (Ptr.head p) (g :: gs) := hgs ▸ hc.1
    rw [hseg.1]
    simp [lastPtr, hgl]

/-- In a well-formed circular list, the sentinel's `next` is the list's
first node. -/
theorem next_head_eq_headPtr {nxt : Ptr → Ptr} {p : Nat} {ts : List Nat}
    (hc : chain nxt (Ptr.head p) (Ptr.head p) ts) :
    nxt (Ptr.head p) = headPtr (Ptr.head p) ts := by
  cases ts with
  | nil => simpa [chain, lastPtr] using hc.2
  | cons a as => exact hc.1.1

@[simp] theorem updL_same (L : Nat → List Nat) (p : Nat) (v : List Nat) :
    updL L p v p = v := by simp [updL]

theorem updL_other (L : Nat → List Nat) {p q : Nat} (v : List Nat)
    (h : q ≠ p) : updL L p v q = L q := by simp [updL, h]

theorem realizes_prio_mem {N : Nat} {s : RQState} {L : Nat → List Nat}
    (hr : realizes N s L) {q u : Nat} (hq : q < N) (hu : u ∈ L q) :
    s.prio u = q :=
  (hr.1 q hq).2.2.1 u hu

/-! ### Effect of the three queue operations on a single circular chain -/

theorem lastPtr_ne_thread {p th : Nat} {ts : List Nat} (hth : th ∉ ts) :
    lastPtr (Ptr.head p) ts ≠ Ptr.thread th := by
  rcases lastPtr_mem (Ptr.head p) ts with hl | ⟨u, hu, hl⟩
  · rw [hl]; simp
  · rw [hl]
    intro hco
    cases hco
    exact hth hu

/-- Tail insertion: redirecting the old last node to `th` and linking `th`
back to the sentinel extends the `next`-chain by `th`. -/
theorem chain_snoc {nxt : Ptr → Ptr} {p th : Nat} {ts : List Nat}
    (hc : chain nxt (Ptr.head p) (Ptr.head p) ts) (hnd : ts.Nodup)
    (hth : th ∉ ts) :
    chain (fupd (fupd nxt (lastPtr (Ptr.head p) ts) (Ptr.thread th))
        (Ptr.thread th) (Ptr.head p)) (Ptr.head p) (Ptr.head p)
      (ts ++ [th]) := by
  have hlt : lastPtr (Ptr.head p) ts ≠ Ptr.thread th := lastPtr_ne_thread hth
  refine ⟨?_, ?_⟩
  · rw [seg_append]
    refine ⟨?_, ?_, trivial⟩
    · apply seg_congr hc.1
      intro x hx
      have h1 : x ≠ lastPtr (Ptr.head p) ts := readers_ne_lastPtr hnd x hx
      have h2 : x ≠ Ptr.thread th := by
        rcases readers_subset hx with rfl | ⟨u, hu, rfl⟩
        · simp
        · intro hco; cases hco; exact hth hu
      rw [fupd_other _ h2, fupd_other _ h1]
    · rw [fupd_other _ hlt, fupd_same]
  · rw [lastPtr_concat, fupd_same]

/-- Tail insertion, `prev` side: pointing `th` at the old last node and the
sentinel at `th` extends the reversed chain by `th`. -/
theorem chain_prev_snoc {prv : Ptr → Ptr} {p th : Nat} {ts : List Nat}
    (hc : chain prv (Ptr.head p) (Ptr.head p) ts.reverse)
    (hth : th ∉ ts) :
    chain (fupd (fupd prv (Ptr.thread th) (lastPtr (Ptr.head p) ts))
        (Ptr.head p) (Ptr.thread th)) (Ptr.head p) (Ptr.head p)
      (ts ++ [th]).reverse := by
  have hth_ne_h : (Ptr.thread th) ≠ (Ptr.head p) := by simp
  rw [show (ts ++ [th]).reverse = th :: ts.reverse by simp]
  refine ⟨⟨?_, ?_⟩, ?_⟩
  · rw [fupd_same]
  · cases ts with
    | nil => trivial
    | cons a as =>
      obtain ⟨g, gs, hgs⟩ :=
        List.exists_cons_of_ne_nil (show (a :: as).reverse ≠ [] by simp)
      have hgl : (a :: as).getLast? = some g := by
        rw [← List.head?_reverse, hgs]; rfl
      have hgmem : g ∈ a :: as :=
        List.mem_of_mem_getLast? (by simp [hgl])
      have hseg : seg prv (Ptr.head p) (g :: gs) := by
        have := hc.1; rw [hgs] at this; exact this
      rw [hgs]
      refine ⟨?_, ?_⟩
      · rw [fupd_other _ hth_ne_h, fupd_same]
        simp [lastPtr, hgl]
      · have hsub : ∀ u : Nat, u ∈ gs → u ∈ a :: as := by
          intro u hu
          have hmemrev : u ∈ (a :: as).reverse := by rw [hgs]; simp [hu]
          rw [List.mem_reverse] at hmemrev
          exact hmemrev
        apply seg_congr hseg.2
        intro x hx
        rcases readers_subset hx with rfl | ⟨u, hu, rfl⟩
        · have h2 : Ptr.thread g ≠ Ptr.thread th := by
            intro hco; cases hco; exact hth hgmem
          have h3 : Ptr.thread g ≠ Ptr.head p := by simp
          rw [fupd_other _ h3, fupd_other _ h2]
        · have h2 : Ptr.thread u ≠ Ptr.thread th := by
            intro hco; cases hco; exact hth (hsub _ hu)
          have h3 : Ptr.thread u ≠ Ptr.head p := by simp
          rw [fupd_other _ h3, fupd_other _ h2]
  · rw [lastPtr_cons]
    cases ts with
    | nil =>
      simp only [List.reverse_nil, lastPtr_nil]
      rw [fupd_other _ hth_ne_h, fupd_same]
    | cons a as =>
      rw [lastPtr_reverse, headPtr_cons]
      have hamem : a ∈ a :: as := by simp
      have h2 : Ptr.thread a ≠ Ptr.thread th := by
        intro hco; cases hco; exact hth hamem
      have h3 : Ptr.thread a ≠ Ptr.head p := by simp
      rw [fupd_other _ h3, fupd_other _ h2]
      have hcl := hc.2
      rw [lastPtr_reverse, headPtr_cons] at hcl
      exact hcl

theorem headPtr_reverse (c : Ptr) (ts : List Nat) :
    headPtr c ts.reverse = lastPtr c ts := by
  have := lastPtr_reverse c ts.reverse
  rw [List.reverse_reverse] at this
  rw [← this]

/-- Head insertion, `next` side: by symmetry with `chain_prev_snoc`. -/
theorem chain_cons {nxt : Ptr → Ptr} {p th : Nat} {ts : List Nat}
    (hc : chain nxt (Ptr.head p) (Ptr.head p) ts) (hth : th ∉ ts) :
    chain (fupd (fupd nxt (Ptr.thread th) (headPtr (Ptr.head p) ts))
        (Ptr.head p) (Ptr.thread th)) (Ptr.head p) (Ptr.head p)
      (th :: ts) := by
  have h1 : chain nxt (Ptr.head p) (Ptr.head p) ts.reverse.reverse := by
    rw [List.reverse_reverse]; exact hc
  have h2 := @chain_prev_snoc nxt p th ts.reverse h1
    (by simpa using hth)
  rw [show (ts.reverse ++ [th]).reverse = th :: ts by simp] at h2
  rw [lastPtr_reverse] at h2
  exact h2

/-- Head insertion, `prev` side: by symmetry with `chain_snoc`. -/
theorem chain_prev_cons {prv : Ptr → Ptr} {p th : Nat} {ts : List Nat}
    (hc : chain prv (Ptr.head p) (Ptr.head p) ts.reverse)
    (hnd : ts.Nodup) (hth : th ∉ ts) :
    chain (fupd (fupd prv (headPtr (Ptr.head p) ts) (Ptr.thread th))
        (Ptr.thread th) (Ptr.head p)) (Ptr.head p) (Ptr.head p)
      (th :: ts).reverse := by
  rw [show (th :: ts).reverse = ts.reverse ++ [th] by simp, ← lastPtr_reverse]
  exact chain_snoc hc (List.nodup_reverse.mpr hnd) (by simpa using hth)

/-- Unlinking `th`: redirecting its predecessor to its successor removes it
from the `next`-chain. -/
theorem chain_next_remove {nxt : Ptr → Ptr} {p th : Nat} {A B : List Nat}
    (hc : chain nxt (Ptr.head p) (Ptr.head p) (A ++ th :: B))
    (hnd : (A ++ th :: B).Nodup) :
    chain (fupd nxt (lastPtr (Ptr.head p) A) (headPtr (Ptr.head p) B))
      (Ptr.head p) (Ptr.head p) (A ++ B) := by
  rw [List.nodup_append] at hnd
  obtain ⟨hndA, hndtB, hdisj⟩ := hnd
  obtain ⟨hthB, hndB⟩ := List.nodup_cons.mp hndtB
  have hthA : th ∉ A := fun hmem => hdisj hmem (by simp)
  have hsegs := hc.1
  rw [seg_append] at hsegs
  obtain ⟨hsegA, hlA, hsegB⟩ := hsegs
  have hclose := hc.2
  rw [lastPtr_append, lastPtr_cons] at hclose
  have hlastA_mem :
      lastPtr (Ptr.head p) A = Ptr.head p ∨
        ∃ g ∈ A, lastPtr (Ptr.head p) A = Ptr.thread g :=
    lastPtr_mem _ A
  have hB_ne_lastA : ∀ u : Nat, u ∈ B →
      Ptr.thread u ≠ lastPtr (Ptr.head p) A := by
    intro u hu hco
    rcases hlastA_mem with hl | ⟨g, hg, hl⟩
    · rw [hl] at hco; cases hco
    · rw [hl] at hco
      cases hco
      exact hdisj hg (by simp [hu])
  refine ⟨?_, ?_⟩
  · rw [seg_append]
    refine ⟨?_, ?_⟩
    · apply seg_congr hsegA
      intro x hx
      exact fupd_other _ (readers_ne_lastPtr hndA x hx)
    · cases B with
      | nil => trivial
      | cons b bs =>
        refine ⟨by rw [fupd_same]; rfl, ?_⟩
        apply seg_congr hsegB.2
        intro x hx
        rcases readers_subset hx with rfl | ⟨u, hu, rfl⟩
        · exact fupd_other _ (hB_ne_lastA b (by simp))
        · exact fupd_other _ (hB_ne_lastA u (by simp [hu]))
  · cases B with
    | nil =>
      rw [List.append_nil, fupd_same]; rfl
    | cons b bs =>
      rw [lastPtr_append]
      obtain ⟨g, hg, hgmem, hgl⟩ :=
        exists_getLast_of_ne_nil (lastPtr (Ptr.head p) A)
          (show b :: bs ≠ [] by simp)
      rw [hgl, fupd_other _ (hB_ne_lastA g hgmem)]
      obtain ⟨g', hg', hgmem', hgl'⟩ :=
        exists_getLast_of_ne_nil (Ptr.thread th) (show b :: bs ≠ [] by simp)
      rw [hgl'] at hclose
      rw [hg'] at hg
      cases hg
      exact hclose

/-- Unlinking `th`, `prev` side: by symmetry with `chain_next_remove`. -/
theorem chain_prev_remove {prv : Ptr → Ptr} {p th : Nat} {A B : List Nat}
    (hc : chain prv (Ptr.head p) (Ptr.head p) (A ++ th :: B).reverse)
    (hnd : (A ++ th :: B).Nodup) :
    chain (fupd prv (headPtr (Ptr.head p) B) (lastPtr (Ptr.head p) A))
      (Ptr.head p) (Ptr.head p) (A ++ B).reverse := by
  have hrev : (A ++ th :: B).reverse = B.reverse ++ th :: A.reverse := by
    simp
  have hnd' : (B.reverse ++ th :: A.reverse).Nodup := by
    rw [← hrev]
    exact List.nodup_reverse.mpr hnd
  have hc' : chain prv (Ptr.head p) (Ptr.head p)
      (B.reverse ++ th :: A.reverse) := by
    rw [← hrev]; exact hc
  have h2 := chain_next_remove (A := B.reverse) (B := A.reverse) hc' hnd'
  rw [lastPtr_reverse, headPtr_reverse] at h2
  rw [show B.reverse ++ A.reverse = (A ++ B).reverse by simp] at h2
  exact h2

/-- In a well-formed circular list containing `th`, `th`'s `next` field is
the first node of the rest of the list (or the sentinel). -/
theorem next_at_thread {nxt : Ptr → Ptr} {p th : Nat} {A B : List Nat}
    (hc : chain nxt (Ptr.head p) (Ptr.head p) (A ++ th :: B)) :
    nxt (Ptr.thread th) = headPtr (Ptr.head p) B := by
  have hsegs := hc.1
  rw [seg_append] at hsegs
  obtain ⟨-, -, hsegB⟩ := hsegs
  cases B with
  | nil =>
    have hclose := hc.2
    rw [lastPtr_concat] at hclose
    exact hclose
  | cons b bs => exact hsegB.1

/-- In a well-formed circular list containing `th`, `th`'s `prev` field is
the last node before it (or the sentinel). -/
theorem prev_at_thread {prv : Ptr → Ptr} {p th : Nat} {A B : List Nat}
    (hc : chain prv (Ptr.head p) (Ptr.head p) (A ++ th :: B).reverse) :
    prv (Ptr.thread th) = lastPtr (Ptr.head p) A := by
  have hc' : chain prv (Ptr.head p) (Ptr.head p)
      (B.reverse ++ th :: A.reverse) := by
    rw [show B.reverse ++ th :: A.reverse = (A ++ th :: B).reverse by simp]
    exact hc
  have := next_at_thread hc'
  rwa [headPtr_reverse] at this

theorem headPtr_mem (c : Ptr) (ts : List Nat) :
    headPtr c ts = c ∨ ∃ t ∈ ts, headPtr c ts = Ptr.thread t := by
  cases ts with
  | nil => exact Or.inl rfl
  | cons a as => exact Or.inr ⟨a, by simp, rfl⟩

theorem ne_lastPtr_of {x : Ptr} {p : Nat} {ts : List Nat}
    (hx_h : x ≠ Ptr.head p) (hx_t : ∀ g ∈ ts, x ≠ Ptr.thread g) :
    x ≠ lastPtr (Ptr.head p) ts := by
  rcases lastPtr_mem (Ptr.head p) ts with hl | ⟨g, hg, hl⟩
  · rw [hl]; exact hx_h
  · rw [hl]; exact hx_t g hg

theorem ne_headPtr_of {x : Ptr} {p : Nat} {ts : List Nat}
    (hx_h : x ≠ Ptr.head p) (hx_t : ∀ g ∈ ts, x ≠ Ptr.thread g) :
    x ≠ headPtr (Ptr.head p) ts := by
  rcases headPtr_mem (Ptr.head p) ts with hl | ⟨g, hg, hl⟩
  · rw [hl]; exact hx_h
  · rw [hl]; exact hx_t g hg

/-- A priority list is untouched by a state change that agrees with the old
state on its sentinel and all its members. -/
theorem listOK_congr {s s' : RQState} {q : Nat} {ws : List Nat}
    (hOK : listOK s q ws)
    (hprio : s'.prio = s.prio)
    (hnext : ∀ x, x = Ptr.head q ∨ (∃ u ∈ ws, x = Ptr.thread u) →
      s'.next x = s.next x)
    (hprev : ∀ x, x = Ptr.head q ∨ (∃ u ∈ ws, x = Ptr.thread u) →
      s'.prev x = s.prev x) :
    listOK s' q ws := by
  obtain ⟨h1, h2, h3, h4⟩ := hOK
  refine ⟨chain_congr h1 hnext, chain_congr h2 ?_, ?_, h4⟩
  · intro x hx
    apply hprev
    rcases hx with rfl | ⟨u, hu, rfl⟩
    · exact Or.inl rfl
    · exact Or.inr ⟨u, List.mem_reverse.mp hu, rfl⟩
  · intro u hu
    rw [hprio]
    exact h3 u hu

/-! ### The operations in explicit record form -/

theorem enqueue_rq_queue_def (s : RQState) (th : Nat) :
    enqueue_rq_queue s th =
      { s with
        bitmap := set_bit s.bitmap (s.prio th),
        next := fupd (fupd s.next (s.prev (Ptr.head (s.prio th)))
            (Ptr.thread th)) (Ptr.thread th) (Ptr.head (s.prio th)),
        prev := fupd (fupd s.prev (Ptr.thread th)
            (s.prev (Ptr.head (s.prio th)))) (Ptr.head (s.prio th))
          (Ptr.thread th) } := rfl

theorem enqueue_rq_queue_head_def (s : RQState) (th : Nat) :
    enqueue_rq_queue_head s th =
      { s with
        bitmap := set_bit s.bitmap (s.prio th),
        next := fupd (fupd s.next (Ptr.thread th)
            (s.next (Ptr.head (s.prio th)))) (Ptr.head (s.prio th))
          (Ptr.thread th),
        prev := fupd (fupd s.prev (s.next (Ptr.head (s.prio th)))
            (Ptr.thread th)) (Ptr.thread th) (Ptr.head (s.prio th)) } := rfl

theorem dequeue_rq_queue_def (s : RQState) (th : Nat) :
    dequeue_rq_queue s th =
      { s with
        bitmap := if (if s.next (Ptr.head (s.prio th)) = Ptr.thread th
            then fupd s.next (Ptr.head (s.prio th)) (s.next (Ptr.thread th))
            else fupd s.next (s.prev (Ptr.thread th))
              (s.next (Ptr.thread th)))
            (Ptr.head (s.prio th)) = Ptr.head (s.prio th)
          then clear_bit s.bitmap (s.prio th) else s.bitmap,
        next := if s.next (Ptr.head (s.prio th)) = Ptr.thread th
          then fupd s.next (Ptr.head (s.prio th)) (s.next (Ptr.thread th))
          else fupd s.next (s.prev (Ptr.thread th)) (s.next (Ptr.thread th)),
        prev := fupd s.prev
          ((if s.next (Ptr.head (s.prio th)) = Ptr.thread th
            then fupd s.next (Ptr.head (s.prio th)) (s.next (Ptr.thread th))
            else fupd s.next (s.prev (Ptr.thread th))
              (s.next (Ptr.thread th))) (Ptr.thread th))
          (s.prev (Ptr.thread th)) } := rfl

/-- On a well-formed run-queue, tail enqueue is exactly: set the bit, link
the old last node to `th`, link `th` between it and the sentinel. -/
theorem enqueue_rq_queue_eq {N : Nat} {s : RQState} {L : Nat → List Nat}
    {th p : Nat} (hr : realizes N s L) (hpth : s.prio th = p) (hp : p < N) :
    enqueue_rq_queue s th =
      { s with
        bitmap := set_bit s.bitmap p,
        next := fupd (fupd s.next (lastPtr (Ptr.head p) (L p))
            (Ptr.thread th)) (Ptr.thread th) (Ptr.head p),
        prev := fupd (fupd s.prev (Ptr.thread th)
            (lastPtr (Ptr.head p) (L p))) (Ptr.head p) (Ptr.thread th) } := by
  have hprevh : s.prev (Ptr.head p) = lastPtr (Ptr.head p) (L p) :=
    prev_head_eq_lastPtr (hr.1 p hp).2.1
  rw [enqueue_rq_queue_def s th, hpth, hprevh]

/-- On a well-formed run-queue, head enqueue is exactly: set the bit, link
`th` between the sentinel and the old first node. -/
theorem enqueue_rq_queue_head_eq {N : Nat} {s : RQState} {L : Nat → List Nat}
    {th p : Nat} (hr : realizes N s L) (hpth : s.prio th = p) (hp : p < N) :
    enqueue_rq_queue_head s th =
      { s with
        bitmap := set_bit s.bitmap p,
        next := fupd (fupd s.next (Ptr.thread th)
            (headPtr (Ptr.head p) (L p))) (Ptr.head p) (Ptr.thread th),
        prev := fupd (fupd s.prev (headPtr (Ptr.head p) (L p))
            (Ptr.thread th)) (Ptr.thread th) (Ptr.head p) } := by
  have hnexth : s.next (Ptr.head p) = headPtr (Ptr.head p) (L p) :=
    next_head_eq_headPtr (hr.1 p hp).1
  rw [enqueue_rq_queue_head_def s th, hpth, hnexth]

/-- On a well-formed run-queue containing `th`, dequeue is exactly:
redirect `th`'s neighbours around it, and clear the bit when the list
becomes empty. -/
theorem dequeue_rq_queue_eq {N : Nat} {s : RQState} {L : Nat → List Nat}
    {th p : Nat} {A B : List Nat} (hr : realizes N s L)
    (hpth : s.prio th = p) (hp : p < N) (hsplit : L p = A ++ th :: B) :
    dequeue_rq_queue s th =
      { s with
        bitmap := if fupd s.next (lastPtr (Ptr.head p) A)
            (headPtr (Ptr.head p) B) (Ptr.head p) = Ptr.head p
          then clear_bit s.bitmap p else s.bitmap,
        next := fupd s.next (lastPtr (Ptr.head p) A)
          (headPtr (Ptr.head p) B),
        prev := fupd s.prev (headPtr (Ptr.head p) B)
          (lastPtr (Ptr.head p) A) } := by
  obtain ⟨hlists, hbm⟩ := hr
  obtain ⟨hcN, hcP, hprio, hnd⟩ := hlists p hp
  rw [hsplit] at hcN hcP hprio hnd
  have hndsplit := hnd
  rw [List.nodup_append] at hndsplit
  obtain ⟨hndA, hndtB, hdisj⟩ := hndsplit
  have hthA : th ∉ A := fun hmem => hdisj hmem (by simp)
  have hnexth : s.next (Ptr.head p) = headPtr (Ptr.head p) (A ++ th :: B) :=
    next_head_eq_headPtr hcN
  have hprevt : s.prev (Ptr.thread th) = lastPtr (Ptr.head p) A :=
    prev_at_thread hcP
  have hnextt : s.next (Ptr.thread th) = headPtr (Ptr.head p) B :=
    next_at_thread hcN
  have hnext1 :
      (if s.next (Ptr.head p) = Ptr.thread th
        then fupd s.next (Ptr.head p) (s.next (Ptr.thread th))
        else fupd s.next (s.prev (Ptr.thread th)) (s.next (Ptr.thread th)))
      = fupd s.next (lastPtr (Ptr.head p) A) (headPtr (Ptr.head p) B) := by
    cases A with
    | nil =>
      have hcond : s.next (Ptr.head p) = Ptr.thread th := by
        rw [hnexth, List.nil_append, headPtr_cons]
      rw [if_pos hcond, hnextt, lastPtr_nil]
    | cons a as =>
      have hath : a ≠ th := fun hco => hthA (hco ▸ (by simp : a ∈ a :: as))
      have hcond : ¬ (s.next (Ptr.head p) = Ptr.thread th) := by
        rw [hnexth, List.cons_append, headPtr_cons]
        simp [hath]
      rw [if_neg hcond, hprevt, hnextt]
  have htne : Ptr.thread th ≠ lastPtr (Ptr.head p) A :=
    fun hco => lastPtr_ne_thread hthA hco.symm
  rw [dequeue_rq_queue_def s th, hpth, hnext1, fupd_other _ htne, hnextt,
    hprevt]

/-! ### Refinement: each operation performs the corresponding abstract list
operation on a well-formed run-queue -/

/-- Refinement: `enqueue_rq_queue` appends a fresh thread to the tail of its priority
list and preserves well-formedness. -/
theorem enqueue_rq_queue_realizes {N : Nat} {s : RQState}
    {L : Nat → List Nat} {th p : Nat} (hr : realizes N s L)
    (hpth : s.prio th = p) (hp : p < N)
    (hfresh : ∀ q, q < N → th ∉ L q) :
    realizes N (enqueue_rq_queue s th) (updL L p (L p ++ [th])) := by
  obtain ⟨hlists, hbm⟩ := hr
  obtain ⟨hcN, hcP, hprio, hnd⟩ := hlists p hp
  have hth : th ∉ L p := hfresh p hp
  have hprevh : s.prev (Ptr.head p) = lastPtr (Ptr.head p) (L p) :=
    prev_head_eq_lastPtr hcP
  have hs' : enqueue_rq_queue s th =
      { s with
        bitmap := set_bit s.bitmap p,
        next := fupd (fupd s.next (lastPtr (Ptr.head p) (L p))
            (Ptr.thread th)) (Ptr.thread th) (Ptr.head p),
        prev := fupd (fupd s.prev (Ptr.thread th)
            (lastPtr (Ptr.head p) (L p))) (Ptr.head p) (Ptr.thread th) } := by
    rw [enqueue_rq_queue_def s th, hpth, hprevh]
  rw [hs']
  constructor
  · intro q hq
    rcases eq_or_ne q p with rfl | hqp
    · rw [updL_same]
      refine ⟨chain_snoc hcN hnd hth, chain_prev_snoc hcP hth, ?_, ?_⟩
      · intro u hu
        rcases List.mem_append.mp hu with hu' | hu'
        · exact hprio u hu'
        · rw [List.mem_singleton] at hu'
          subst hu'
          exact hpth
      · rw [List.nodup_append]
        refine ⟨hnd, List.nodup_singleton th, ?_⟩
        intro a ha hb
        rw [List.mem_singleton] at hb
        subst hb
        exact hth ha
    · rw [updL_other _ _ hqp]
      obtain ⟨hprio_q⟩ : ∃ _ : (∀ u ∈ L q, s.prio u = q), True :=
        ⟨(hlists q hq).2.2.1, trivial⟩
      have hxne : ∀ x, x = Ptr.head q ∨ (∃ u ∈ L q, x = Ptr.thread u) →
          x ≠ Ptr.thread th ∧ x ≠ lastPtr (Ptr.head p) (L p) ∧
            x ≠ Ptr.head p := by
        intro x hx
        rcases hx with rfl | ⟨u, hu, rfl⟩
        · exact ⟨by simp, ne_lastPtr_of (by simp [hqp]) (by simp),
            by simp [hqp]⟩
        · have hpu : s.prio u = q := hprio_q u hu
          refine ⟨?_, ne_lastPtr_of (by simp) ?_, by simp⟩
          · intro hco
            cases hco
            exact hfresh q hq hu
          · intro g hg hco
            cases hco
            have hqpeq : q = p := by rw [← hpu]; exact hprio _ hg
            exact hqp hqpeq
      refine listOK_congr (hlists q hq) rfl ?_ ?_
      · intro x hx
        obtain ⟨h1, h2, h3⟩ := hxne x hx
        show fupd (fupd s.next (lastPtr (Ptr.head p) (L p)) (Ptr.thread th))
          (Ptr.thread th) (Ptr.head p) x = s.next x
        rw [fupd_other _ h1, fupd_other _ h2]
      · intro x hx
        obtain ⟨h1, h2, h3⟩ := hxne x hx
        show fupd (fupd s.prev (Ptr.thread th) (lastPtr (Ptr.head p) (L p)))
          (Ptr.head p) (Ptr.thread th) x = s.prev x
        rw [fupd_other _ h3, fupd_other _ h1]
  · intro q hq
    rcases eq_or_ne q p with rfl | hqp
    · rw [updL_same]
      simp
    · rw [updL_other _ _ hqp]
      have := hbm q hq
      simp only [testBit_set_bit]
      simpa [hqp] using this

/-- Refinement: `enqueue_rq_queue_head` prepends a fresh thread to the head of its
priority list and preserves well-formedness. -/
theorem enqueue_rq_queue_head_realizes {N : Nat} {s : RQState}
    {L : Nat → List Nat} {th p : Nat} (hr : realizes N s L)
    (hpth : s.prio th = p) (hp : p < N)
    (hfresh : ∀ q, q < N → th ∉ L q) :
    realizes N (enqueue_rq_queue_head s th) (updL L p (th :: L p)) := by
  obtain ⟨hlists, hbm⟩ := hr
  obtain ⟨hcN, hcP, hprio, hnd⟩ := hlists p hp
  have hth : th ∉ L p := hfresh p hp
  have hnexth : s.next (Ptr.head p) = headPtr (Ptr.head p) (L p) :=
    next_head_eq_headPtr hcN
  have hs' : enqueue_rq_queue_head s th =
      { s with
        bitmap := set_bit s.bitmap p,
        next := fupd (fupd s.next (Ptr.thread th)
            (headPtr (Ptr.head p) (L p))) (Ptr.head p) (Ptr.thread th),
        prev := fupd (fupd s.prev (headPtr (Ptr.head p) (L p))
            (Ptr.thread th)) (Ptr.thread th) (Ptr.head p) } := by
    rw [enqueue_rq_queue_head_def s th, hpth, hnexth]
  rw [hs']
  constructor
  · intro q hq
    rcases eq_or_ne q p with rfl | hqp
    · rw [updL_same]
      refine ⟨chain_cons hcN hth, chain_prev_cons hcP hnd hth, ?_, ?_⟩
      · intro u hu
        rcases List.mem_cons.mp hu with hu' | hu'
        · subst hu'; exact hpth
        · exact hprio u hu'
      · rw [List.nodup_cons]
        exact ⟨hth, hnd⟩
    · rw [updL_other _ _ hqp]
      have hprio_q : ∀ u ∈ L q, s.prio u = q := (hlists q hq).2.2.1
      have hxne : ∀ x, x = Ptr.head q ∨ (∃ u ∈ L q, x = Ptr.thread u) →
          x ≠ Ptr.thread th ∧ x ≠ headPtr (Ptr.head p) (L p) ∧
            x ≠ Ptr.head p := by
        intro x hx
        rcases hx with rfl | ⟨u, hu, rfl⟩
        · exact ⟨by simp, ne_headPtr_of (by simp [hqp]) (by simp),
            by simp [hqp]⟩
        · have hpu : s.prio u = q := hprio_q u hu
          refine ⟨?_, ne_headPtr_of (by simp) ?_, by simp⟩
          · intro hco
            cases hco
            exact hfresh q hq hu
          · intro g hg hco
            cases hco
            have hqpeq : q = p := by rw [← hpu]; exact hprio _ hg
            exact hqp hqpeq
      refine listOK_congr (hlists q hq) rfl ?_ ?_
      · intro x hx
        obtain ⟨h1, h2, h3⟩ := hxne x hx
        show fupd (fupd s.next (Ptr.thread th) (headPtr (Ptr.head p) (L p)))
          (Ptr.head p) (Ptr.thread th) x = s.next x
        rw [fupd_other _ h3, fupd_other _ h1]
      · intro x hx
        obtain ⟨h1, h2, h3⟩ := hxne x hx
        show fupd (fupd s.prev (headPtr (Ptr.head p) (L p)) (Ptr.thread th))
          (Ptr.thread th) (Ptr.head p) x = s.prev x
        rw [fupd_other _ h1, fupd_other _ h2]
  · intro q hq
    rcases eq_or_ne q p with rfl | hqp
    · rw [updL_same]
      simp
    · rw [updL_other _ _ hqp]
      have := hbm q hq
      simp only [testBit_set_bit]
      simpa [hqp] using this

/-- Refinement: `dequeue_rq_queue` removes a present thread from its priority list
(wherever it sits) and preserves well-formedness. -/
theorem dequeue_rq_queue_realizes {N : Nat} {s : RQState}
    {L : Nat → List Nat} {th p : Nat} {A B : List Nat} (hr : realizes N s L)
    (hpth : s.prio th = p) (hp : p < N) (hsplit : L p = A ++ th :: B) :
    realizes N (dequeue_rq_queue s th) (updL L p (A ++ B)) := by
  obtain ⟨hlists, hbm⟩ := hr
  obtain ⟨hcN, hcP, hprio, hnd⟩ := hlists p hp
  rw [hsplit] at hcN hcP hprio hnd
  have hndsplit := hnd
  rw [List.nodup_append] at hndsplit
  obtain ⟨hndA, hndtB, hdisj⟩ := hndsplit
  obtain ⟨hthB, hndB⟩ := List.nodup_cons.mp hndtB
  have hthA : th ∉ A := fun hmem => hdisj hmem (by simp)
  have hnexth : s.next (Ptr.head p) = headPtr (Ptr.head p) (A ++ th :: B) :=
    next_head_eq_headPtr hcN
  have hprevt : s.prev (Ptr.thread th) = lastPtr (Ptr.head p) A :=
    prev_at_thread hcP
  have hnextt : s.next (Ptr.thread th) = headPtr (Ptr.head p) B :=
    next_at_thread hcN
  have hnext1 :
      (if s.next (Ptr.head p) = Ptr.thread th
        then fupd s.next (Ptr.head p) (s.next (Ptr.thread th))
        else fupd s.next (s.prev (Ptr.thread th)) (s.next (Ptr.thread th)))
      = fupd s.next (lastPtr (Ptr.head p) A) (headPtr (Ptr.head p) B) := by
    cases A with
    | nil =>
      have hcond : s.next (Ptr.head p) = Ptr.thread th := by
        rw [hnexth, List.nil_append, headPtr_cons]
      rw [if_pos hcond, hnextt, lastPtr_nil]
    | cons a as =>
      have hath : a ≠ th := fun hco => hthA (hco ▸ (by simp : a ∈ a :: as))
      have hcond : ¬ (s.next (Ptr.head p) = Ptr.thread th) := by
        rw [hnexth, List.cons_append, headPtr_cons]
        simp [hath]
      rw [if_neg hcond, hprevt, hnextt]
  have htne : Ptr.thread th ≠ lastPtr (Ptr.head p) A :=
    fun hco => lastPtr_ne_thread hthA hco.symm
  have hs' : dequeue_rq_queue s th =
      { s with
        bitmap := if fupd s.next (lastPtr (Ptr.head p) A)
            (headPtr (Ptr.head p) B) (Ptr.head p) = Ptr.head p
          then clear_bit s.bitmap p else s.bitmap,
        next := fupd s.next (lastPtr (Ptr.head p) A)
          (headPtr (Ptr.head p) B),
        prev := fupd s.prev (headPtr (Ptr.head p) B)
          (lastPtr (Ptr.head p) A) } := by
    rw [dequeue_rq_queue_def s th, hpth, hnext1, fupd_other _ htne, hnextt,
      hprevt]
  rw [hs']
  constructor
  · intro q hq
    rcases eq_or_ne q p with rfl | hqp
    · rw [updL_same]
      refine ⟨chain_next_remove hcN hnd, chain_prev_remove hcP hnd, ?_, ?_⟩
      · intro u hu
        apply hprio u
        rcases List.mem_append.mp hu with hu' | hu'
        · exact List.mem_append.mpr (Or.inl hu')
        · exact List.mem_append.mpr (Or.inr (List.mem_cons_of_mem th hu'))
      · have hsub : (A ++ B).Sublist (A ++ th :: B) :=
          List.Sublist.append_left (List.sublist_cons_self th B) A
        exact hnd.sublist hsub
    · rw [updL_other _ _ hqp]
      have hprio_q : ∀ u ∈ L q, s.prio u = q := (hlists q hq).2.2.1
      have hxne : ∀ x, x = Ptr.head q ∨ (∃ u ∈ L q, x = Ptr.thread u) →
          x ≠ lastPtr (Ptr.head p) A ∧ x ≠ headPtr (Ptr.head p) B := by
        intro x hx
        have hA : ∀ g ∈ A, s.prio g = p := fun g hg =>
          hprio g (List.mem_append.mpr (Or.inl hg))
        have hB : ∀ g ∈ B, s.prio g = p := fun g hg =>
          hprio g (List.mem_append.mpr (Or.inr (List.mem_cons_of_mem th hg)))
        rcases hx with rfl | ⟨u, hu, rfl⟩
        · exact ⟨ne_lastPtr_of (by simp [hqp]) (by simp),
            ne_headPtr_of (by simp [hqp]) (by simp)⟩
        · have hpu : s.prio u = q := hprio_q u hu
          constructor
          · refine ne_lastPtr_of (by simp) ?_
            intro g hg hco
            cases hco
            exact hqp (by rw [← hpu]; exact hA _ hg)
          · refine ne_headPtr_of (by simp) ?_
            intro g hg hco
            cases hco
            exact hqp (by rw [← hpu]; exact hB _ hg)
      refine listOK_congr (hlists q hq) rfl ?_ ?_
      · intro x hx
        obtain ⟨h1, h2⟩ := hxne x hx
        show fupd s.next (lastPtr (Ptr.head p) A) (headPtr (Ptr.head p) B) x
          = s.next x
        rw [fupd_other _ h1]
      · intro x hx
        obtain ⟨h1, h2⟩ := hxne x hx
        show fupd s.prev (headPtr (Ptr.head p) B) (lastPtr (Ptr.head p) A) x
          = s.prev x
        rw [fupd_other _ h2]
  · intro q hq
    rcases eq_or_ne q p with rfl | hqp
    · rw [updL_same]
      cases A with
      | nil =>
        rw [lastPtr_nil]
        cases B with
        | nil =>
          rw [if_pos (by rw [fupd_same]; rfl)]
          simp
        | cons b bs =>
          rw [if_neg (by rw [fupd_same, headPtr_cons]; simp)]
          have hbit : s.bitmap.testBit q = true :=
            (hbm q hq).mpr (by rw [hsplit]; simp)
          simp [hbit]
      | cons a as =>
        have hlne : Ptr.head q ≠ lastPtr (Ptr.head q) (a :: as) := by
          obtain ⟨g, hg, hgm, hgl⟩ :=
            exists_getLast_of_ne_nil (Ptr.head q)
              (show a :: as ≠ [] by simp)
          rw [hgl]; simp
        rw [if_neg (by
          rw [fupd_other _ hlne, hnexth, List.cons_append, headPtr_cons]
          simp)]
        have hbit : s.bitmap.testBit q = true :=
          (hbm q hq).mpr (by rw [hsplit]; simp)
        simp [hbit]
    · rw [updL_other _ _ hqp]
      have hold := hbm q hq
      by_cases hcnd : fupd s.next (lastPtr (Ptr.head p) A)
          (headPtr (Ptr.head p) B) (Ptr.head p) = Ptr.head p
      · rw [if_pos hcnd]
        rw [testBit_clear_bit]
        simpa [hqp] using hold
      · rw [if_neg hcnd]
        exact hold

@[simp] theorem applyOp_prio (s : RQState) (o : RQOp) :
    (applyOp s o).prio = s.prio := by
  cases o <;> rfl

/-- Master refinement: a legal operation sequence keeps the run-queue
well-formed and tracks the abstract lists. -/
theorem realizes_applyOps {N : Nat} {s : RQState} {L : Nat → List Nat}
    {ops : List RQOp} (hr : realizes N s L)
    (hleg : legalOps N s.prio L ops) :
    realizes N (applyOps s ops) (runL s.prio L ops) := by
  induction ops generalizing s L with
  | nil => exact hr
  | cons o os ih =>
    obtain ⟨hop, hops⟩ := hleg
    have hstep : realizes N (applyOp s o) (stepL s.prio L o) := by
      cases o with
      | enqTail th =>
        exact enqueue_rq_queue_realizes hr rfl hop.1 hop.2
      | enqHead th =>
        exact enqueue_rq_queue_head_realizes hr rfl hop.1 hop.2
      | deq th =>
        obtain ⟨A, B, hnA, hsplit, herase⟩ :=
          List.exists_erase_eq hop.2
        have := dequeue_rq_queue_realizes hr rfl hop.1 hsplit
        show realizes N (dequeue_rq_queue s th)
          (updL L (s.prio th) ((L (s.prio th)).erase th))
        rw [herase]
        exact this
    have hops' : legalOps N (applyOp s o).prio (stepL s.prio L o) os := by
      rw [applyOp_prio]
      exact hops
    have := ih hstep hops'
    rw [applyOp_prio] at this
    exact this

/-- Bitmap bit `p` is set iff the priority-`p` circular list is structurally
non-empty (`head.next ≠ &head`). -/
theorem realizes_nonempty_iff {N : Nat} {s : RQState} {L : Nat → List Nat}
    (hr : realizes N s L) {p : Nat} (hp : p < N) :
    (s.bitmap.testBit p = true ↔ s.next (Ptr.head p) ≠ Ptr.head p) := by
  have h1 := hr.2 p hp
  have h2 := next_head_eq_headPtr (hr.1 p hp).1
  rw [h1, h2]
  cases L p with
  | nil => simp
  | cons a as => simp

/-! ### `find_first_bit` and `pick_next_task` -/

theorem ffbFrom_ge (bm : Nat) : ∀ (f i : Nat), i ≤ ffbFrom bm i f := by
  intro f
  induction f with
  | zero => intro i; exact Nat.le_refl i
  | succ f ih =>
    intro i
    unfold ffbFrom
    by_cases hb : bm.testBit i
    · rw [if_pos hb]
    · rw [if_neg hb]
      exact Nat.le_trans (Nat.le_succ i) (ih (i + 1))

theorem ffbFrom_le (bm : Nat) : ∀ (f i : Nat), ffbFrom bm i f ≤ i + f := by
  intro f
  induction f with
  | zero => intro i; exact Nat.le_refl i
  | succ f ih =>
    intro i
    unfold ffbFrom
    by_cases hb : bm.testBit i
    · rw [if_pos hb]; omega
    · rw [if_neg hb]
      have := ih (i + 1)
      omega

theorem ffbFrom_min (bm : Nat) : ∀ (f i q : Nat), i ≤ q →
    q < ffbFrom bm i f → bm.testBit q = false := by
  intro f
  induction f with
  | zero =>
    intro i q hiq hq
    exact absurd hq (by simpa [ffbFrom] using Nat.not_lt.mpr hiq)
  | succ f ih =>
    intro i q hiq hq
    unfold ffbFrom at hq
    by_cases hb : bm.testBit i
    · rw [if_pos hb] at hq; omega
    · rw [if_neg hb] at hq
      rcases Nat.eq_or_lt_of_le hiq with rfl | hlt
      · exact Bool.of_not_eq_true hb
      · exact ih (i + 1) q hlt hq

theorem ffbFrom_bit (bm : Nat) : ∀ (f i : Nat), ffbFrom bm i f < i + f →
    bm.testBit (ffbFrom bm i f) = true := by
  intro f
  induction f with
  | zero => intro i h; simp only [ffbFrom] at h; omega
  | succ f ih =>
    intro i h
    unfold ffbFrom at h ⊢
    by_cases hb : bm.testBit i
    · rw [if_pos hb]; exact hb
    · rw [if_neg hb] at h ⊢
      exact ih (i + 1) (by omega)

theorem ffbFrom_eq (bm : Nat) : ∀ (f i j : Nat), i ≤ j → j < i + f →
    bm.testBit j = true → (∀ q, i ≤ q → q < j → bm.testBit q = false) →
    ffbFrom bm i f = j := by
  intro f
  induction f with
  | zero => intro i j h1 h2; omega
  | succ f ih =>
    intro i j hij hjf hbit hmin
    unfold ffbFrom
    by_cases hb : bm.testBit i
    · rw [if_pos hb]
      rcases Nat.eq_or_lt_of_le hij with rfl | hlt
      · rfl
      · rw [hmin i (Nat.le_refl i) hlt] at hb; cases hb
    · rw [if_neg hb]
      rcases Nat.eq_or_lt_of_le hij with rfl | hlt
      · exact absurd hbit hb
      · exact ih (i + 1) j hlt (by omega) hbit
          (fun q hq1 hq2 => hmin q (by omega) hq2)

theorem find_first_bit_le (bm N : Nat) : find_first_bit bm N ≤ N := by
  have := ffbFrom_le bm N 0
  simpa [find_first_bit] using this

theorem find_first_bit_eq {bm N b : Nat} (hb : b < N)
    (hbit : bm.testBit b = true)
    (hmin : ∀ q, q < b → bm.testBit q = false) :
    find_first_bit bm N = b :=
  ffbFrom_eq bm N 0 b (Nat.zero_le b) (by omega) hbit
    (fun q _ hq => hmin q hq)

theorem find_first_bit_eq_N {bm N : Nat}
    (hall : ∀ p, p < N → bm.testBit p = false) :
    find_first_bit bm N = N := by
  rcases Nat.lt_or_ge (find_first_bit bm N) N with hlt | hge
  · have hbit2 : bm.testBit (find_first_bit bm N) = true :=
      ffbFrom_bit bm N 0 (by simpa [find_first_bit] using hlt)
    rw [hall _ hlt] at hbit2
    cases hbit2
  · exact Nat.le_antisymm (find_first_bit_le bm N) hge

theorem find_first_bit_min {bm N q : Nat} (hq : q < find_first_bit bm N) :
    bm.testBit q = false :=
  ffbFrom_min bm N 0 q (Nat.zero_le q) hq

/-- State effect: `pick_next_task` only writes `bindex`. -/
theorem pick_next_task_state (N : Nat) (s : RQState) :
    (pick_next_task N s).2 =
      { s with bindex := find_first_bit s.bitmap N } := by
  unfold pick_next_task
  by_cases hb : find_first_bit s.bitmap N ≠ N
  · rw [if_pos hb]
  · rw [if_neg hb]

theorem pick_next_task_none_iff {N : Nat} {s : RQState} {L : Nat → List Nat}
    (hr : realizes N s L) :
    (pick_next_task N s).1 = none ↔ ∀ q, q < N → L q = [] := by
  constructor
  · intro hnone q hq
    have hffb : find_first_bit s.bitmap N = N := by
      by_contra hne
      unfold pick_next_task at hnone
      rw [if_pos hne] at hnone
      cases hnone
    have hbit : s.bitmap.testBit q = false :=
      find_first_bit_min (N := N) (by rw [hffb]; exact hq)
    have := hr.2 q hq
    rw [hbit] at this
    by_contra hne'
    exact absurd (this.mpr hne') (by simp)
  · intro hall
    have hffb : find_first_bit s.bitmap N = N := by
      apply find_first_bit_eq_N
      intro q hq
      have := hr.2 q hq
      rw [hall q hq] at this
      by_contra hbt
      exact absurd (this.mp (Bool.of_not_eq_false hbt)) (by simp)
    unfold pick_next_task
    rw [hffb, if_neg (by simp)]

theorem pick_next_task_some {N : Nat} {s : RQState} {L : Nat → List Nat}
    {b a : Nat} {rest : List Nat} (hr : realizes N s L) (hb : b < N)
    (hlow : ∀ q, q < b → L q = []) (hLb : L b = a :: rest) :
    (pick_next_task N s).1 = some (Ptr.thread a) := by
  have hbit : s.bitmap.testBit b = true :=
    (hr.2 b hb).mpr (by rw [hLb]; simp)
  have hmin : ∀ q, q < b → s.bitmap.testBit q = false := by
    intro q hq
    have hqN : q < N := Nat.lt_trans hq hb
    have := hr.2 q hqN
    rw [hlow q hq] at this
    by_contra hbt
    exact absurd (this.mp (Bool.of_not_eq_false hbt)) (by simp)
  have hffb : find_first_bit s.bitmap N = b := find_first_bit_eq hb hbit hmin
  have hnext : s.next (Ptr.head b) = Ptr.thread a := by
    have h2 := next_head_eq_headPtr (hr.1 b hb).1
    rw [hLb, headPtr_cons] at h2
    exact h2
  unfold pick_next_task
  rw [hffb, if_pos (Nat.ne_of_lt hb)]
  simpa using hnext

/-- What `init_rq` does: it self-links every sentinel head below `N` and
touches nothing else — in particular it does not write the bitmap. -/
theorem init_rq_spec (N : Nat) (s : RQState) :
    (∀ p, p < N → (init_rq N s).next (Ptr.head p) = Ptr.head p ∧
      (init_rq N s).prev (Ptr.head p) = Ptr.head p) ∧
    (∀ t, (init_rq N s).next (Ptr.thread t) = s.next (Ptr.thread t) ∧
      (init_rq N s).prev (Ptr.thread t) = s.prev (Ptr.thread t)) ∧
    (init_rq N s).bitmap = s.bitmap ∧
    (init_rq N s).prio = s.prio ∧
    (init_rq N s).bindex = s.bindex := by
  induction N with
  | zero =>
    exact ⟨fun p hp => absurd hp (by omega), fun t => ⟨rfl, rfl⟩, rfl, rfl,
      rfl⟩
  | succ n ih =>
    have hstep : init_rq (n + 1) s =
        { init_rq n s with
          next := fupd (init_rq n s).next (Ptr.head n) (Ptr.head n),
          prev := fupd (init_rq n s).prev (Ptr.head n) (Ptr.head n) } := by
      unfold init_rq
      rw [List.range_succ, List.foldl_append]
      rfl
    obtain ⟨ihh, iht, ihb, ihp, ihx⟩ := ih
    rw [hstep]
    dsimp only
    refine ⟨?_, ?_, ihb, ihp, ihx⟩
    · intro p hp
      rcases eq_or_ne p n with rfl | hpn
      · constructor <;> rw [fupd_same]
      · have hne : Ptr.head p ≠ Ptr.head n := by simp [hpn]
        constructor <;>
          (rw [fupd_other _ hne]; first
            | exact (ihh p (by omega)).1
            | exact (ihh p (by omega)).2)
    · intro t
      have hne : Ptr.thread t ≠ Ptr.head n := by simp
      constructor <;>
        (rw [fupd_other _ hne]; first
          | exact (iht t).1
          | exact (iht t).2)

theorem lor_one_of_testBit {v : Nat} (h : v.testBit 0 = true) :
    v ||| 1 = v := by
  apply Nat.eq_of_testBit_eq
  intro n
  rw [Nat.testBit_or]
  cases n with
  | zero => simp [h]
  | succ m =>
    have h1 : (1 : Nat).testBit (m + 1) = false := by
      rw [Nat.testBit_succ]
      simp
    simp [h1]

/-! ## The claims -/

/-- C1: for every well-formed run-queue (each priority list a consistent
circular list realizing `L`, threads' priorities in range) and every
priority `p < N`, after any sequence of `enqueue_rq_queue` /
`enqueue_rq_queue_head` / `dequeue_rq_queue` operations whose preconditions
hold (enqueued threads not already queued, dequeued threads present), bit
`p` of the bitmap is 1 iff the priority-`p` list is non-empty
(`head.next ≠ &head`). -/
theorem bitmap_list_consistency {N : Nat} (s : RQState) (L : Nat → List Nat)
    (ops : List RQOp) (hr : realizes N s L)
    (hleg : legalOps N s.prio L ops) {p : Nat} (hp : p < N) :
    ((applyOps s ops).bitmap.testBit p = true ↔
      (applyOps s ops).next (Ptr.head p) ≠ Ptr.head p) :=
  realizes_nonempty_iff (realizes_applyOps hr hleg) hp

theorem bitmap_list_consistency_witness :
    (realizes 2 sInit (fun _ => []) ∧
      legalOps 2 sInit.prio (fun _ => []) [RQOp.enqTail 0, RQOp.deq 0] ∧
      (0 : Nat) < 2) ∧
    ((applyOps sInit [RQOp.enqTail 0, RQOp.deq 0]).bitmap.testBit 0 = true ↔
      (applyOps sInit [RQOp.enqTail 0, RQOp.deq 0]).next (Ptr.head 0)
        ≠ Ptr.head 0) :=
  ⟨⟨by decide, by decide, by decide⟩,
    bitmap_list_consistency (N := 2) sInit (fun _ => [])
      [RQOp.enqTail 0, RQOp.deq 0] (by decide) (by decide) (by decide)⟩

/-- C2: on a well-formed run-queue, `pick_next_task` returns `NULL`
(`none`) iff no priority list is non-empty (equivalently, no bitmap bit is
set), otherwise it returns the first thread of the list at the
lowest-numbered non-empty priority; in both cases it leaves the lists and
the bitmap unchanged (it only writes `bindex`). -/
theorem pick_next_task_spec {N : Nat} (s : RQState) (L : Nat → List Nat)
    (hr : realizes N s L) :
    ((pick_next_task N s).1 = none ↔ ∀ q, q < N → L q = []) ∧
    (∀ b a rest, b < N → (∀ q, q < b → L q = []) → L b = a :: rest →
      (pick_next_task N s).1 = some (Ptr.thread a)) ∧
    (pick_next_task N s).2.next = s.next ∧
    (pick_next_task N s).2.prev = s.prev ∧
    (pick_next_task N s).2.bitmap = s.bitmap :=
  ⟨pick_next_task_none_iff hr,
    fun _ _ _ hb hlow hLb => pick_next_task_some hr hb hlow hLb,
    by rw [pick_next_task_state], by rw [pick_next_task_state],
    by rw [pick_next_task_state]⟩

theorem pick_next_task_spec_witness :
    realizes 1 sInit (fun _ => []) ∧
    ((pick_next_task 1 sInit).1 = none ↔
      ∀ q, q < 1 → (fun _ : Nat => ([] : List Nat)) q = []) :=
  ⟨by decide, (pick_next_task_spec sInit (fun _ => []) (by decide)).1⟩

/-- C3: if fresh threads `A` then `B` of the same priority `p` are tail
enqueued with `enqueue_rq_queue` (no more urgent thread being queued), then
`pick_next_task` returns `A` without dequeuing it, and after dequeuing `A`
the next `pick_next_task` returns `B`: tail enqueue preserves arrival order
among equal-priority threads. -/
theorem fifo_same_priority {N : Nat} {s : RQState} {L : Nat → List Nat}
    {A B p : Nat} (hr : realizes N s L) (hA : s.prio A = p)
    (hB : s.prio B = p) (hp : p < N) (hAB : A ≠ B)
    (hfA : ∀ q, q < N → A ∉ L q) (hfB : ∀ q, q < N → B ∉ L q)
    (hlow : ∀ q, q ≤ p → L q = []) :
    (pick_next_task N (enqueue_rq_queue (enqueue_rq_queue s A) B)).1
      = some (Ptr.thread A) ∧
    (pick_next_task N (dequeue_rq_queue
      (enqueue_rq_queue (enqueue_rq_queue s A) B) A)).1
      = some (Ptr.thread B) := by
  have hr1 := enqueue_rq_queue_realizes hr hA hp hfA
  have hB1 : (enqueue_rq_queue s A).prio B = p := hB
  have hfB1 : ∀ q, q < N → B ∉ updL L p (L p ++ [A]) q := by
    intro q hq
    rcases eq_or_ne q p with rfl | hqp
    · rw [updL_same]
      intro hmem
      rcases List.mem_append.mp hmem with hm | hm
      · exact hfB q hq hm
      · rw [List.mem_singleton] at hm
        exact hAB hm.symm
    · rw [updL_other _ _ hqp]
      exact hfB q hq
  have hr2 := enqueue_rq_queue_realizes hr1 hB1 hp hfB1
  have hLp : L p = [] := hlow p (Nat.le_refl p)
  obtain ⟨M, hrM, hMp, hMlow⟩ :
      ∃ M, realizes N (enqueue_rq_queue (enqueue_rq_queue s A) B) M ∧
        M p = [A, B] ∧ (∀ q, q < p → M q = []) := by
    refine ⟨_, hr2, ?_, ?_⟩
    · simp [hLp]
    · intro q hq
      have hqp : q ≠ p := Nat.ne_of_lt hq
      rw [updL_other _ _ hqp, updL_other _ _ hqp]
      exact hlow q (Nat.le_of_lt hq)
  constructor
  · exact pick_next_task_some hrM hp hMlow (by rw [hMp])
  · have hA2 : (enqueue_rq_queue (enqueue_rq_queue s A) B).prio A = p := hA
    have hsplitA : M p = [] ++ A :: [B] := by rw [hMp]; rfl
    have hr3 := dequeue_rq_queue_realizes hrM hA2 hp hsplitA
    have hL3p : updL M p ([] ++ [B]) p = B :: [] := by
      rw [updL_same, List.nil_append]
    have hlow3 : ∀ q, q < p → updL M p ([] ++ [B]) q = [] := by
      intro q hq
      rw [updL_other _ _ (Nat.ne_of_lt hq)]
      exact hMlow q hq
    exact pick_next_task_some hr3 hp hlow3 hL3p

theorem fifo_same_priority_witness :
    (realizes 1 sInit (fun _ => []) ∧ sInit.prio 0 = 0 ∧ sInit.prio 1 = 0 ∧
      (0 : Nat) < 1 ∧ (0 : Nat) ≠ 1) ∧
    ((pick_next_task 1 (enqueue_rq_queue (enqueue_rq_queue sInit 0) 1)).1
        = some (Ptr.thread 0) ∧
      (pick_next_task 1 (dequeue_rq_queue
        (enqueue_rq_queue (enqueue_rq_queue sInit 0) 1) 0)).1
        = some (Ptr.thread 1)) :=
  ⟨⟨by decide, by decide, by decide, by decide, by decide⟩,
    fifo_same_priority (N := 1) (s := sInit) (L := fun _ => []) (A := 0)
      (B := 1) (p := 0) (by decide) (by decide) (by decide) (by decide)
      (by decide) (by decide) (by decide) (by decide)⟩

/-- C5: if threads `A` then `B` are tail-enqueued at priority `p` and a
fresh thread `C` is then enqueued at `p` with `enqueue_rq_queue_head`, and
no lower-numbered priority is non-empty, then the next `pick_next_task`
returns `C`, ahead of `A` and `B`. -/
theorem head_priority_jump {N : Nat} {s : RQState} {L : Nat → List Nat}
    {A B C p : Nat} (hr : realizes N s L) (hA : s.prio A = p)
    (hB : s.prio B = p) (hC : s.prio C = p) (hp : p < N)
    (hAB : A ≠ B) (hAC : A ≠ C) (hBC : B ≠ C)
    (hfA : ∀ q, q < N → A ∉ L q) (hfB : ∀ q, q < N → B ∉ L q)
    (hfC : ∀ q, q < N → C ∉ L q)
    (hlow : ∀ q, q < p → L q = []) :
    (pick_next_task N (enqueue_rq_queue_head
      (enqueue_rq_queue (enqueue_rq_queue s A) B) C)).1
      = some (Ptr.thread C) := by
  have hr1 := enqueue_rq_queue_realizes hr hA hp hfA
  have hB1 : (enqueue_rq_queue s A).prio B = p := hB
  have hfB1 : ∀ q, q < N → B ∉ updL L p (L p ++ [A]) q := by
    intro q hq
    rcases eq_or_ne q p with rfl | hqp
    · rw [updL_same]
      intro hmem
      rcases List.mem_append.mp hmem with hm | hm
      · exact hfB q hq hm
      · rw [List.mem_singleton] at hm
        exact hAB hm.symm
    · rw [updL_other _ _ hqp]
      exact hfB q hq
  have hr2 := enqueue_rq_queue_realizes hr1 hB1 hp hfB1
  have hC2 : (enqueue_rq_queue (enqueue_rq_queue s A) B).prio C = p := hC
  have hfC2 : ∀ q, q < N →
      C ∉ updL (updL L p (L p ++ [A])) p
        (updL L p (L p ++ [A]) p ++ [B]) q := by
    intro q hq
    rcases eq_or_ne q p with rfl | hqp
    · rw [updL_same, updL_same]
      intro hmem
      rcases List.mem_append.mp hmem with hm | hm
      · rcases List.mem_append.mp hm with hm' | hm'
        · exact hfC q hq hm'
        · rw [List.mem_singleton] at hm'
          exact hAC hm'.symm
      · rw [List.mem_singleton] at hm
        exact hBC hm.symm
    · rw [updL_other _ _ hqp, updL_other _ _ hqp]
      exact hfC q hq
  have hr3 := enqueue_rq_queue_head_realizes hr2 hC2 hp hfC2
  obtain ⟨M, hrM, hMp, hMlow⟩ :
      ∃ M, realizes N (enqueue_rq_queue_head
          (enqueue_rq_queue (enqueue_rq_queue s A) B) C) M ∧
        (∃ r, M p = C :: r) ∧ (∀ q, q < p → M q = []) := by
    refine ⟨_, hr3, ⟨_, updL_same _ _ _⟩, ?_⟩
    intro q hq
    have hqp : q ≠ p := Nat.ne_of_lt hq
    rw [updL_other _ _ hqp, updL_other _ _ hqp, updL_other _ _ hqp]
    exact hlow q hq
  obtain ⟨r, hMp⟩ := hMp
  exact pick_next_task_some hrM hp hMlow hMp

theorem head_priority_jump_witness :
    (realizes 1 sInit (fun _ => []) ∧ sInit.prio 2 = 0 ∧ (0 : Nat) < 1) ∧
    (pick_next_task 1 (enqueue_rq_queue_head
      (enqueue_rq_queue (enqueue_rq_queue sInit 0) 1) 2)).1
      = some (Ptr.thread 2) :=
  ⟨⟨by decide, by decide, by decide⟩,
    head_priority_jump (N := 1) (s := sInit) (L := fun _ => []) (A := 0)
      (B := 1) (C := 2) (p := 0) (by decide) (by decide) (by decide)
      (by decide) (by decide) (by decide) (by decide) (by decide)
      (by decide) (by decide) (by decide) (by decide)⟩

/-- C6: `spin_unlock` first writes the lock word to `_SPIN_UNLOCKED` and
only afterwards restores the interrupt-enable state saved in the lock: at
every point in its step sequence where the interrupt restore executes, the
lock word already reads unlocked, and the final state has the lock word
unlocked and `%rflags` equal to the saved `lock->rflags`. -/
theorem spin_unlock_order (s : CpuState) :
    (∀ i, spin_unlock_steps[i]? = some UnlockStep.restore_irq →
      ((spin_unlock_steps.take i).foldl (unlock_step s.lock.rflags)
        s).lock.val = _SPIN_UNLOCKED) ∧
    (spin_unlock s).lock.val = _SPIN_UNLOCKED ∧
    (spin_unlock s).rflags = s.lock.rflags := by
  refine ⟨?_, rfl, rfl⟩
  intro i hi
  match i with
  | 0 => simp [spin_unlock_steps] at hi
  | 1 => rfl
  | (n + 2) => simp [spin_unlock_steps] at hi

theorem spin_unlock_order_witness :
    ((spin_unlock_steps.take 1).foldl (unlock_step cpuLocked.lock.rflags)
      cpuLocked).lock.val = _SPIN_UNLOCKED ∧
    (spin_unlock cpuLocked).rflags = cpuLocked.lock.rflags :=
  ⟨(spin_unlock_order cpuLocked).1 1 rfl,
    (spin_unlock_order cpuLocked).2.2⟩

/-- C9: if `spin_trylock`'s single test-and-set finds the lock already held
(bit 0 of `val` set), it returns `false` with the caller's pre-call
`%rflags` restored and the lock's `val` and saved `rflags` unchanged; if it
finds the lock free, it returns `true` with the lock word set, local
interrupts left disabled (IF bit clear), and the pre-call flags saved in
`lock->rflags` for the matching unlock. -/
theorem spin_trylock_spec (s : CpuState) :
    (s.lock.val.testBit 0 = true →
      (spin_trylock s).1 = false ∧
      (spin_trylock s).2.rflags = s.rflags ∧
      (spin_trylock s).2.lock.val = s.lock.val ∧
      (spin_trylock s).2.lock.rflags = s.lock.rflags) ∧
    (s.lock.val.testBit 0 = false →
      (spin_trylock s).1 = true ∧
      (spin_trylock s).2.lock.val.testBit 0 = true ∧
      ((spin_trylock s).2.rflags).testBit 9 = false ∧
      (spin_trylock s).2.lock.rflags = s.rflags) := by
  have h1 : (1 : Nat).testBit 0 = true := rfl
  constructor
  · intro h
    have hval : s.lock.val ||| 1 = s.lock.val := lor_one_of_testBit h
    refine ⟨?_, ?_, ?_, ?_⟩ <;>
      simp [spin_trylock, local_irq_disable_save, atomic_bit_test_and_set,
        local_irq_restore, _SPIN_LOCKED, _SPIN_UNLOCKED, h, hval]
  · intro h
    refine ⟨?_, ?_, ?_, ?_⟩ <;>
      simp [spin_trylock, local_irq_disable_save, atomic_bit_test_and_set,
        local_irq_restore, _SPIN_LOCKED, _SPIN_UNLOCKED, h, Nat.testBit_or,
        h1]

theorem spin_trylock_spec_witness :
    (cpuLocked.lock.val.testBit 0 = true ∧
      ((spin_trylock cpuLocked).1 = false ∧
        (spin_trylock cpuLocked).2.rflags = cpuLocked.rflags ∧
        (spin_trylock cpuLocked).2.lock.val = cpuLocked.lock.val ∧
        (spin_trylock cpuLocked).2.lock.rflags = cpuLocked.lock.rflags)) ∧
    (cpuFree.lock.val.testBit 0 = false ∧
      ((spin_trylock cpuFree).1 = true ∧
        (spin_trylock cpuFree).2.lock.val.testBit 0 = true ∧
        ((spin_trylock cpuFree).2.rflags).testBit 9 = false ∧
        (spin_trylock cpuFree).2.lock.rflags = cpuFree.rflags)) :=
  ⟨⟨by decide, (spin_trylock_spec cpuLocked).1 (by decide)⟩,
    ⟨by decide, (spin_trylock_spec cpuFree).2 (by decide)⟩⟩

/-- C10: the enqueue operations index the head array and the bitmap
directly with `th->priority` and perform no range check: for a thread whose
priority `p` is out of range (`N ≤ p`), tail enqueue still sets bitmap bit
`p` and writes `th` into the `prev` field of the (out-of-bounds) sentinel
`array[p]`, and head enqueue likewise sets bit `p` and writes `th` into
that sentinel's `next` field. -/
theorem enqueue_no_range_check (N : Nat) (s : RQState) (th : Nat)
    (_hout : N ≤ s.prio th) :
    (enqueue_rq_queue s th).bitmap.testBit (s.prio th) = true ∧
    (enqueue_rq_queue s th).prev (Ptr.head (s.prio th)) = Ptr.thread th ∧
    (enqueue_rq_queue_head s th).bitmap.testBit (s.prio th) = true ∧
    (enqueue_rq_queue_head s th).next (Ptr.head (s.prio th))
      = Ptr.thread th := by
  refine ⟨?_, ?_, ?_, ?_⟩
  · rw [enqueue_rq_queue_def]
    simp
  · rw [enqueue_rq_queue_def]
    exact fupd_same _ _ _
  · rw [enqueue_rq_queue_head_def]
    simp
  · rw [enqueue_rq_queue_head_def]
    exact fupd_same _ _ _

theorem enqueue_no_range_check_witness :
    (4 : Nat) ≤ sHigh.prio 0 ∧
    ((enqueue_rq_queue sHigh 0).bitmap.testBit (sHigh.prio 0) = true ∧
      (enqueue_rq_queue sHigh 0).prev (Ptr.head (sHigh.prio 0))
        = Ptr.thread 0 ∧
      (enqueue_rq_queue_head sHigh 0).bitmap.testBit (sHigh.prio 0)
        = true ∧
      (enqueue_rq_queue_head sHigh 0).next (Ptr.head (sHigh.prio 0))
        = Ptr.thread 0) :=
  ⟨by decide, enqueue_no_range_check 4 sHigh 0 (by decide)⟩

theorem set_bit_eq_self {bm p : Nat} (h : bm.testBit p = true) :
    set_bit bm p = bm := by
  apply Nat.eq_of_testBit_eq
  intro q
  rw [testBit_set_bit]
  rcases eq_or_ne q p with rfl | hq
  · simp [h]
  · simp [hq]

theorem clear_bit_eq_self {bm p : Nat} (h : bm.testBit p = false) :
    clear_bit bm p = bm := by
  apply Nat.eq_of_testBit_eq
  intro q
  rw [testBit_clear_bit]
  rcases eq_or_ne q p with rfl | hq
  · simp [h]
  · simp [hq]

theorem clear_bit_set_bit {bm p : Nat} (h : bm.testBit p = false) :
    clear_bit (set_bit bm p) p = bm := by
  apply Nat.eq_of_testBit_eq
  intro q
  rw [testBit_clear_bit, testBit_set_bit]
  rcases eq_or_ne q p with rfl | hq
  · simp [h]
  · simp [hq]

/-- C8 counterexample: `init_rq` never touches the bitmap, so a prior state
with bit 0 set keeps it set after `init_rq` — the claim that the bitmap is
entirely cleared for every prior state is false. -/
theorem init_rq_bitmap_cex :
    (init_rq 1 sBit).bitmap.testBit 0 = true ∧
    (init_rq 1 sBit).next (Ptr.head 0) = Ptr.head 0 := by decide

/-- C8 amended: after `init_rq` returns, every priority level's head has
`next` and `prev` pointing to itself (all lists empty), but the bitmap is
left exactly as it was — `init_rq` contains no bitmap write, so the bitmap
is all-zero at boot only because kernel globals start zeroed. -/
theorem init_rq_amended (N : Nat) (s : RQState) {p : Nat} (hp : p < N) :
    (init_rq N s).next (Ptr.head p) = Ptr.head p ∧
    (init_rq N s).prev (Ptr.head p) = Ptr.head p ∧
    (init_rq N s).bitmap = s.bitmap :=
  ⟨((init_rq_spec N s).1 p hp).1, ((init_rq_spec N s).1 p hp).2,
    (init_rq_spec N s).2.2.1⟩

theorem init_rq_amended_witness :
    (0 : Nat) < 1 ∧
    ((init_rq 1 sBit).next (Ptr.head 0) = Ptr.head 0 ∧
      (init_rq 1 sBit).prev (Ptr.head 0) = Ptr.head 0 ∧
      (init_rq 1 sBit).bitmap = sBit.bitmap) :=
  ⟨by decide, init_rq_amended 1 sBit (by decide)⟩

/-- C4 counterexample: starting from a boot state in which thread 0 is
self-linked, tail-enqueueing it and dequeueing it again leaves its `next`
pointing at the priority-0 sentinel, not at itself — `dequeue_rq_queue`
never resets the dequeued thread's own links, so the heap is not restored
to its exact prior state. -/
theorem enqueue_dequeue_roundtrip_cex :
    sInit.next (Ptr.thread 0) = Ptr.thread 0 ∧
    sInit.prev (Ptr.thread 0) = Ptr.thread 0 ∧
    (dequeue_rq_queue (enqueue_rq_queue sInit 0) 0).next (Ptr.thread 0)
      = Ptr.head 0 ∧
    (dequeue_rq_queue (enqueue_rq_queue sInit 0) 0).next (Ptr.thread 0)
      ≠ Ptr.thread 0 := by decide

/-- C4 amended: enqueueing a fresh thread (tail or head) and then
dequeueing it restores the run-queue itself exactly — same bitmap, same
`next`/`prev` at the sentinels and at every other node — but the dequeued
thread's own links are left pointing into the former list (after a tail
round trip: `next` at the sentinel and `prev` at the former tail; after a
head round trip: `next` at the former first node and `prev` at the
sentinel), not at the thread itself. -/
theorem enqueue_dequeue_roundtrip {N : Nat} {s : RQState}
    {L : Nat → List Nat} {th p : Nat} (hr : realizes N s L)
    (hpth : s.prio th = p) (hp : p < N)
    (hfresh : ∀ q, q < N → th ∉ L q) :
    ((dequeue_rq_queue (enqueue_rq_queue s th) th).bitmap = s.bitmap ∧
      (∀ x, x ≠ Ptr.thread th →
        (dequeue_rq_queue (enqueue_rq_queue s th) th).next x = s.next x ∧
        (dequeue_rq_queue (enqueue_rq_queue s th) th).prev x = s.prev x) ∧
      (dequeue_rq_queue (enqueue_rq_queue s th) th).next (Ptr.thread th)
        = Ptr.head p ∧
      (dequeue_rq_queue (enqueue_rq_queue s th) th).prev (Ptr.thread th)
        = s.prev (Ptr.head p)) ∧
    ((dequeue_rq_queue (enqueue_rq_queue_head s th) th).bitmap
        = s.bitmap ∧
      (∀ x, x ≠ Ptr.thread th →
        (dequeue_rq_queue (enqueue_rq_queue_head s th) th).next x
          = s.next x ∧
        (dequeue_rq_queue (enqueue_rq_queue_head s th) th).prev x
          = s.prev x) ∧
      (dequeue_rq_queue (enqueue_rq_queue_head s th) th).next
        (Ptr.thread th) = s.next (Ptr.head p) ∧
      (dequeue_rq_queue (enqueue_rq_queue_head s th) th).prev
        (Ptr.thread th) = Ptr.head p) := by
  have hth : th ∉ L p := hfresh p hp
  have hclose : s.next (lastPtr (Ptr.head p) (L p)) = Ptr.head p :=
    (hr.1 p hp).1.2
  have hprevh : s.prev (Ptr.head p) = lastPtr (Ptr.head p) (L p) :=
    prev_head_eq_lastPtr (hr.1 p hp).2.1
  have hnexth : s.next (Ptr.head p) = headPtr (Ptr.head p) (L p) :=
    next_head_eq_headPtr (hr.1 p hp).1
  have hfirstprev : s.prev (headPtr (Ptr.head p) (L p)) = Ptr.head p := by
    have hcl := (hr.1 p hp).2.1.2
    rwa [lastPtr_reverse] at hcl
  have hlt : lastPtr (Ptr.head p) (L p) ≠ Ptr.thread th :=
    lastPtr_ne_thread hth
  have hft : Ptr.thread th ≠ headPtr (Ptr.head p) (L p) :=
    ne_headPtr_of (by simp) (fun g hg hco => by
      cases hco; exact hth hg)
  have hth_ne_h : Ptr.thread th ≠ Ptr.head p := by simp
  have hbm := hr.2 p hp
  constructor
  · -- tail round trip
    have hr1 := enqueue_rq_queue_realizes hr hpth hp hfresh
    have hpth1 : (enqueue_rq_queue s th).prio th = p := hpth
    have hsplit1 : updL L p (L p ++ [th]) p = L p ++ th :: [] := by
      rw [updL_same]
    have hsD := dequeue_rq_queue_eq hr1 hpth1 hp hsplit1
    have hsE := enqueue_rq_queue_eq hr hpth hp
    rw [hsD, hsE]
    dsimp only
    simp only [headPtr_nil]
    refine ⟨?_, ?_, ?_, ?_⟩
    · -- bitmap
      cases hLp : L p with
      | nil =>
        rw [hLp] at hbm
        simp only [lastPtr_nil]
        rw [if_pos (by rw [fupd_same])]
        apply clear_bit_set_bit
        by_contra hb
        exact absurd (hbm.mp (Bool.of_not_eq_false hb)) (by simp)
      | cons a as =>
        rw [hLp] at hbm hnexth
        obtain ⟨g, hg, hgm, hgl⟩ :=
          exists_getLast_of_ne_nil (Ptr.head p)
            (show a :: as ≠ [] by simp)
        have hhl : Ptr.head p ≠ lastPtr (Ptr.head p) (a :: as) := by
          rw [hgl]; simp
        rw [if_neg (by
          rw [fupd_other _ hhl, fupd_other _ hth_ne_h.symm,
            fupd_other _ hhl, hnexth, headPtr_cons]
          simp)]
        apply set_bit_eq_self
        exact hbm.mpr (by simp)
    · -- next and prev at every other node
      intro x hx
      constructor
      · rcases eq_or_ne x (lastPtr (Ptr.head p) (L p)) with rfl | hxl
        · rw [fupd_same, hclose]
        · rw [fupd_other _ hxl, fupd_other _ hx, fupd_other _ hxl]
      · rcases eq_or_ne x (Ptr.head p) with rfl | hxh
        · rw [fupd_same, hprevh]
        · rw [fupd_other _ hxh, fupd_other _ hxh, fupd_other _ hx]
    · -- th's next
      rw [fupd_other _ hlt.symm, fupd_same]
    · -- th's prev
      rw [fupd_other _ hth_ne_h, fupd_other _ hth_ne_h, fupd_same, hprevh]
  · -- head round trip
    have hr1 := enqueue_rq_queue_head_realizes hr hpth hp hfresh
    have hpth1 : (enqueue_rq_queue_head s th).prio th = p := hpth
    have hsplit1 : updL L p (th :: L p) p = [] ++ th :: L p := by
      rw [updL_same, List.nil_append]
    have hsD := dequeue_rq_queue_eq hr1 hpth1 hp hsplit1
    have hsE := enqueue_rq_queue_head_eq hr hpth hp
    rw [hsD, hsE]
    dsimp only
    simp only [lastPtr_nil]
    refine ⟨?_, ?_, ?_, ?_⟩
    · -- bitmap
      cases hLp : L p with
      | nil =>
        rw [hLp] at hbm
        simp only [headPtr_nil]
        rw [if_pos (by rw [fupd_same])]
        apply clear_bit_set_bit
        by_contra hb
        exact absurd (hbm.mp (Bool.of_not_eq_false hb)) (by simp)
      | cons a as =>
        rw [hLp] at hbm
        rw [if_neg (by rw [fupd_same, headPtr_cons]; simp)]
        apply set_bit_eq_self
        exact hbm.mpr (by simp)
    · -- next and prev at every other node
      intro x hx
      constructor
      · rcases eq_or_ne x (Ptr.head p) with rfl | hxh
        · rw [fupd_same, hnexth]
        · rw [fupd_other _ hxh, fupd_other _ hxh, fupd_other _ hx]
      · rcases eq_or_ne x (headPtr (Ptr.head p) (L p)) with rfl | hxf
        · rw [fupd_same, hfirstprev]
        · rw [fupd_other _ hxf, fupd_other _ hx, fupd_other _ hxf]
    · -- th's next
      rw [fupd_other _ hth_ne_h, fupd_other _ hth_ne_h, fupd_same, hnexth]
    · -- th's prev
      rw [fupd_other _ hft, fupd_same]

theorem enqueue_dequeue_roundtrip_witness :
    (realizes 1 sInit (fun _ => []) ∧ sInit.prio 0 = 0 ∧ (0 : Nat) < 1) ∧
    ((dequeue_rq_queue (enqueue_rq_queue sInit 0) 0).bitmap
        = sInit.bitmap ∧
      (dequeue_rq_queue (enqueue_rq_queue sInit 0) 0).next (Ptr.thread 0)
        = Ptr.head 0) :=
  ⟨⟨by decide, by decide, by decide⟩,
    ⟨(@enqueue_dequeue_roundtrip 1 sInit (fun _ => []) 0 0
        (by decide) (by decide) (by decide) (by decide)).1.1,
      (@enqueue_dequeue_roundtrip 1 sInit (fun _ => []) 0 0
        (by decide) (by decide) (by decide) (by decide)).1.2.2.1⟩⟩

/-- C7 counterexample: the operations contain no invariant check and no
abort path.  Tail-enqueueing the already-queued sole thread of priority 0
silently proceeds: it returns a state (it does not fault), and that state
is corrupted — the thread's `prev` now points at the thread itself, and no
list assignment realizes the resulting heap. -/
theorem double_enqueue_silent_cex :
    (enqueue_rq_queue (enqueue_rq_queue sInit 0) 0).prev (Ptr.thread 0)
      = Ptr.thread 0 ∧
    (enqueue_rq_queue (enqueue_rq_queue sInit 0) 0).next (Ptr.head 0)
      = Ptr.thread 0 ∧
    (enqueue_rq_queue (enqueue_rq_queue sInit 0) 0).next (Ptr.thread 0)
      = Ptr.head 0 ∧
    ¬ realizes 1 (enqueue_rq_queue (enqueue_rq_queue sInit 0) 0)
      (fun _ => [0]) := by decide

/-- C7 amended: no invariant check exists.  Enqueueing an already-queued
thread proceeds unconditionally and corrupts the structure (re-enqueueing
the sole thread of its priority list leaves the thread's `prev` pointing at
itself, and the resulting heap realizes no list assignment at all), and
dequeueing an absent (self-linked) thread proceeds unconditionally as a
silent no-op; neither is detected or signalled. -/
theorem no_fault_on_invalid_ops {N : Nat} {s : RQState}
    {L : Nat → List Nat} (hr : realizes N s L) :
    (∀ th p, s.prio th = p → p < N → L p = [th] →
      (enqueue_rq_queue s th).prev (Ptr.thread th) = Ptr.thread th ∧
      ∀ M, ¬ realizes N (enqueue_rq_queue s th) M) ∧
    (∀ th p, s.prio th = p → p < N →
      s.next (Ptr.thread th) = Ptr.thread th →
      s.prev (Ptr.thread th) = Ptr.thread th →
      ((dequeue_rq_queue s th).bitmap = s.bitmap ∧
        (∀ x, (dequeue_rq_queue s th).next x = s.next x) ∧
        (∀ x, (dequeue_rq_queue s th).prev x = s.prev x))) := by
  constructor
  · intro th p hpth hp hL
    have hsE := enqueue_rq_queue_eq hr hpth hp
    have hlp : lastPtr (Ptr.head p) (L p) = Ptr.thread th := by
      rw [hL]; rfl
    have hnexth : s.next (Ptr.head p) = Ptr.thread th := by
      have hnh := next_head_eq_headPtr (hr.1 p hp).1
      rw [hL, headPtr_cons] at hnh
      exact hnh
    have hth_ne_h : Ptr.thread th ≠ Ptr.head p := by simp
    have hprev_t : (enqueue_rq_queue s th).prev (Ptr.thread th)
        = Ptr.thread th := by
      rw [hsE]
      dsimp only
      rw [fupd_other _ hth_ne_h, fupd_same, hlp]
    have hnext_h : (enqueue_rq_queue s th).next (Ptr.head p)
        = Ptr.thread th := by
      rw [hsE]
      dsimp only
      rw [hlp, fupd_other _ hth_ne_h.symm, fupd_other _ hth_ne_h.symm,
        hnexth]
    have hnext_t : (enqueue_rq_queue s th).next (Ptr.thread th)
        = Ptr.head p := by
      rw [hsE]
      dsimp only
      rw [fupd_same]
    have hbit : (enqueue_rq_queue s th).bitmap.testBit p = true := by
      rw [hsE]
      dsimp only
      simp
    refine ⟨hprev_t, ?_⟩
    intro M hM
    obtain ⟨hMl, hMb⟩ := hM
    have hMne := (hMb p hp).mp hbit
    cases hMps : M p with
    | nil => exact hMne hMps
    | cons a rest =>
      have hchain := (hMl p hp).1
      rw [hMps] at hchain
      obtain ⟨⟨h1, h2⟩, h3⟩ := hchain
      rw [hnext_h] at h1
      have ha : th = a := by injection h1
      subst ha
      cases rest with
      | cons b bs =>
        obtain ⟨h4, -⟩ := h2
        rw [hnext_t] at h4
        exact absurd h4 (by simp)
      | nil =>
        have hpc := (hMl p hp).2.1
        rw [hMps] at hpc
        obtain ⟨-, hclose2⟩ := hpc
        rw [show lastPtr (Ptr.head p) ([th].reverse) = Ptr.thread th
          from rfl] at hclose2
        rw [hprev_t] at hclose2
        exact absurd hclose2 (by simp)
  · intro th p hpth hp hnt hpt
    have hbm := hr.2 p hp
    have hnexth := next_head_eq_headPtr (hr.1 p hp).1
    rw [dequeue_rq_queue_def, hpth]
    have hnext1 : ∀ x,
        (if s.next (Ptr.head p) = Ptr.thread th
          then fupd s.next (Ptr.head p) (s.next (Ptr.thread th))
          else fupd s.next (s.prev (Ptr.thread th))
            (s.next (Ptr.thread th))) x = s.next x := by
      intro x
      by_cases hc : s.next (Ptr.head p) = Ptr.thread th
      · rw [if_pos hc]
        rcases eq_or_ne x (Ptr.head p) with rfl | hx
        · rw [fupd_same, hnt, hc]
        · rw [fupd_other _ hx]
      · rw [if_neg hc, hpt]
        rcases eq_or_ne x (Ptr.thread th) with rfl | hx
        · rw [fupd_same, hnt]
        · rw [fupd_other _ hx]
    dsimp only
    refine ⟨?_, ?_, ?_⟩
    · rw [hnext1]
      cases hLp : L p with
      | nil =>
        have hcond : s.next (Ptr.head p) = Ptr.head p := by
          rw [hnexth, hLp, headPtr_nil]
        rw [if_pos hcond]
        apply clear_bit_eq_self
        by_contra hb
        exact (hbm.mp (Bool.of_not_eq_false hb)) hLp
      | cons a as =>
        rw [if_neg (by rw [hnexth, hLp, headPtr_cons]; simp)]
    · intro x
      exact hnext1 x
    · intro x
      rw [hnext1, hnt, hpt]
      rcases eq_or_ne x (Ptr.thread th) with rfl | hx
      · rw [fupd_same, hpt]
      · rw [fupd_other _ hx]

theorem no_fault_on_invalid_ops_witness :
    (realizes 1 sOne (fun _ => [0]) ∧ realizes 1 sInit (fun _ => []) ∧
      sOne.prio 0 = 0 ∧ (0 : Nat) < 1) ∧
    ((enqueue_rq_queue sOne 0).prev (Ptr.thread 0) = Ptr.thread 0 ∧
      ¬ realizes 1 (enqueue_rq_queue sOne 0) (fun _ => [0]) ∧
      (dequeue_rq_queue sInit 5).bitmap = sInit.bitmap) :=
  ⟨⟨by decide, by decide, by decide, by decide⟩,
    ⟨((no_fault_on_invalid_ops
        (by decide : realizes 1 sOne (fun _ => [0]))).1 0 0 rfl
        (by decide) rfl).1,
      ((no_fault_on_invalid_ops
        (by decide : realizes 1 sOne (fun _ => [0]))).1 0 0 rfl
        (by decide) rfl).2 (fun _ => [0]),
      ((no_fault_on_invalid_ops
        (by decide : realizes 1 sInit (fun _ => []))).2 5 0 rfl
        (by decide) rfl rfl).1⟩⟩

end Mcube

